import Mathlib

/-
Verification of the ESPkMeansLib vector-clustering engine against its design
specification.  The engine (k-means++ seeding, dense/sparse vector layer,
Lloyd iteration, spherical variant, multi-restart selection, conversion
utilities) is modelled from the specification text over exact rational
arithmetic.  Numbers are represented by kernel-computable unreduced
fractions (structure Q below) so that every operation of the model can be
evaluated by the kernel on concrete inputs; each Q value is interpreted in
ℚ through Q.toRat, and all analytic statements are made at the ℚ level.
The square root used by the cosine-similarity machinery of the spherical
variant is a deterministic rational approximation with a proved two-sided
error bound, mirroring the role of floating-point sqrt in a concrete
implementation.
-/

set_option maxRecDepth 100000

namespace ESPkMeansLib

/-- Exact fraction: integer numerator over a positive natural denominator.
Fractions are not kept reduced; equality and order are value-wise through
cross multiplication, and the interpretation into ℚ is Q.toRat. -/
structure Q where
  num : ℤ
  den : ℕ+
deriving Repr, DecidableEq

def qzero : Q := ⟨0, 1⟩

def qone : Q := ⟨1, 1⟩

def Q.add (a b : Q) : Q := ⟨a.num * (b.den : ℤ) + b.num * (a.den : ℤ), a.den * b.den⟩

def Q.mul (a b : Q) : Q := ⟨a.num * b.num, a.den * b.den⟩

def Q.neg (a : Q) : Q := ⟨-a.num, a.den⟩

def Q.sub (a b : Q) : Q := a.add b.neg

def Q.inv : Q → Q
  | ⟨Int.ofNat 0, _⟩ => qzero
  | ⟨Int.ofNat (m + 1), d⟩ => ⟨((d : ℕ) : ℤ), ⟨m + 1, Nat.succ_pos m⟩⟩
  | ⟨Int.negSucc m, d⟩ => ⟨-((d : ℕ) : ℤ), ⟨m + 1, Nat.succ_pos m⟩⟩

def Q.div (a b : Q) : Q := a.mul b.inv

def Q.blt (a b : Q) : Bool := a.num * ((b.den : ℕ) : ℤ) < b.num * ((a.den : ℕ) : ℤ)

def Q.ble (a b : Q) : Bool := a.num * ((b.den : ℕ) : ℤ) ≤ b.num * ((a.den : ℕ) : ℤ)

def Q.qabs (a : Q) : Q := ⟨(a.num.natAbs : ℤ), a.den⟩

def Q.qmax (a b : Q) : Q := if a.blt b then b else a

/-- Interpretation of a model fraction as a rational number. -/
def Q.toRat (a : Q) : ℚ := (a.num : ℚ) / ((a.den : ℕ) : ℚ)

/-- Fuel-driven bisection for the integer square root; the fuel pattern keeps
the recursion kernel-computable. -/
def sqrtAux : ℕ → ℕ → ℕ → ℕ → ℕ
  | 0, lo, _, _ => lo
  | f + 1, lo, hi, n =>
    if hi ≤ lo + 1 then lo
    else
      let mid := (lo + hi) / 2
      if mid * mid ≤ n then sqrtAux f mid hi n else sqrtAux f lo mid n

/-- Integer square root: the unique m with m * m ≤ n < (m + 1) * (m + 1). -/
def intSqrt (n : ℕ) : ℕ := sqrtAux (n + 2) 0 (n + 1) n

/-! Vector layer: dense vectors are lists of exact fractions, sparse vectors
are lists of (index, value) pairs.  Modelled from the spec: the VectorView
component (dot product, squared norm, dense/sparse conversion) of the engine,
whose implementation is not part of the examined material. -/

/-- Dense vector of the model. -/
abbrev DenseVec := List Q

def vdot : DenseVec → DenseVec → Q
  | [], _ => qzero
  | _, [] => qzero
  | x :: xs, y :: ys => (x.mul y).add (vdot xs ys)

/-- Squared norm is dot product with itself. -/
def vnormSq (v : DenseVec) : Q := vdot v v

def vadd : DenseVec → DenseVec → DenseVec := List.zipWith Q.add

def vscale (a : Q) (v : DenseVec) : DenseVec := v.map (Q.mul a)

def vzero (d : ℕ) : DenseVec := List.replicate d qzero

def qsum (l : List Q) : Q := l.foldr Q.add qzero

def vsum (d : ℕ) (vs : List DenseVec) : DenseVec := vs.foldr vadd (vzero d)

def getQ (v : DenseVec) (i : ℕ) : Q := v.getD i qzero

/-- A vector in either encoding.  Sparse pairs carry the 32-bit signed index
of the source as an integer. -/
inductive FlexibleVector where
  | dense (values : List Q)
  | sparse (pairs : List (ℤ × Q))

/-- Modelled from the spec: ToSparse scans a dense vector and emits
(index, value) pairs for entries exceeding a near-zero threshold in
magnitude, preserving ascending index order. -/
def toSparseAux (eps : Q) : ℕ → List Q → List (ℤ × Q)
  | _, [] => []
  | i, x :: xs =>
    if eps.blt x.qabs then ((i : ℤ), x) :: toSparseAux eps (i + 1) xs
    else toSparseAux eps (i + 1) xs

def ToSparse (v : DenseVec) (eps : Q) : List (ℤ × Q) := toSparseAux eps 0 v

/-- Modelled from the spec: the parameterless ToSparse overload used by the
interop script applies a default near-zero threshold. -/
def defaultSparseEpsilon : Q := ⟨1, 1000000000⟩

def ToSparseDefault (v : DenseVec) : List (ℤ × Q) := ToSparse v defaultSparseEpsilon

def scatterPairs (ps : List (ℤ × Q)) (buf : DenseVec) : DenseVec :=
  ps.foldl (fun b p => b.set p.1.toNat p.2) buf

/-- Modelled from the spec: ToDense expands a sparse vector into an all-zero
buffer of the given dimension and then scatters its pairs. -/
def ToDense (ps : List (ℤ × Q)) (dim : ℕ) : DenseVec := scatterPairs ps (vzero dim)

/-- Modelled from the spec: enumeration of the (index, value) pairs of a
sparse vector in their stored (ascending) order. -/
def AsEnumerable (ps : List (ℤ × Q)) : List (ℤ × Q) := ps

def FlexibleVector.dotDense : FlexibleVector → DenseVec → Q
  | .dense xs, c => vdot xs c
  | .sparse ps, c => qsum (ps.map (fun p => p.2.mul (getQ c p.1.toNat)))

def FlexibleVector.normSq : FlexibleVector → Q
  | .dense xs => vnormSq xs
  | .sparse ps => qsum (ps.map (fun p => p.2.mul p.2))

def FlexibleVector.toDenseVec (dim : ℕ) : FlexibleVector → DenseVec
  | .dense xs => xs.take dim ++ List.replicate (dim - xs.length) qzero
  | .sparse ps => ToDense ps dim

def qtwo : Q := ⟨2, 1⟩

/-- Squared Euclidean distance of a vector (either encoding) to a dense
centroid, computed from dot products. -/
def distSq (v : FlexibleVector) (c : DenseVec) : Q :=
  (v.normSq.sub (qtwo.mul (v.dotDense c))).add (vnormSq c)

/-- Modelled from the spec: deterministic rational square-root approximation
standing in for floating-point sqrt, with 20 bits of extra scale. -/
def ratSqrt (q : Q) : Q :=
  if q.num ≤ 0 then qzero
  else ⟨(intSqrt (q.num.toNat * (q.den : ℕ) * 4 ^ 20) : ℤ), q.den * ((2 : ℕ+) ^ 20)⟩

/-- Cosine similarity of a vector to a dense centroid. -/
def cosSim (v : FlexibleVector) (c : DenseVec) : Q :=
  let d := (ratSqrt v.normSq).mul (ratSqrt (vnormSq c))
  if d.num = 0 then qzero else (v.dotDense c).div d

/-- Modelled from the spec: in spherical mode a centroid is re-normalized to
unit length; the zero vector is left untouched (that case is handled by the
reseeding policy of the centroid updater). -/
def normalizeV (m : DenseVec) : DenseVec :=
  if (vnormSq m).num = 0 then m else vscale (Q.inv (ratSqrt (vnormSq m))) m

/-! Random source.  Modelled from the spec: a single seeded deterministic
random source threaded explicitly through the call, never ambient state. -/

def lcgNext (s : ℕ) : ℕ := (1103515245 * s + 12345) % 2 ^ 31

def randIdx (s n : ℕ) : ℕ × ℕ := let t := lcgNext s; (t % n, t)

def randFrac (s : ℕ) : Q × ℕ := let t := lcgNext s; (⟨(t : ℤ), (2 : ℕ+) ^ 31⟩, t)

/-- Cumulative-distribution sampling: walk the weight list accumulating a
running sum and return the first index whose cumulative weight exceeds the
target. -/
def cdfPick : List Q → Q → ℕ
  | [], _ => 0
  | w :: ws, t => if t.blt w then 0 else cdfPick ws (t.sub w) + 1

/-! Assigner. -/

/-- The dissimilarity minimized by the assigner: squared distance in standard
mode, one minus cosine similarity in spherical mode (minimizing it maximizes
the similarity). -/
def assignMetric (sph : Bool) (v : FlexibleVector) (c : DenseVec) : Q :=
  if sph then qone.sub (cosSim v c) else distSq v c

/-- Index of the least value in a list, earliest index winning ties. -/
def idxMin : List Q → ℕ
  | [] => 0
  | [_] => 0
  | v :: w :: vs =>
    let j := idxMin (w :: vs)
    if (getQ (w :: vs) j).blt v then j + 1 else 0

/-- Index of the greatest value in a list, earliest index winning ties. -/
def idxMax : List Q → ℕ
  | [] => 0
  | [_] => 0
  | v :: w :: vs =>
    let j := idxMax (w :: vs)
    if v.blt (getQ (w :: vs) j) then j + 1 else 0

def argBest (sph : Bool) (v : FlexibleVector) (cents : List DenseVec) : ℕ :=
  idxMin (cents.map (assignMetric sph v))

def assignAll (sph : Bool) (data : List FlexibleVector) (cents : List DenseVec) : List ℕ :=
  data.map (fun v => argBest sph v cents)

/-! Centroid updater. -/

def getV (data : List FlexibleVector) (i : ℕ) : FlexibleVector := data.getD i (.dense [])

def memberIdx (a : List ℕ) (c : ℕ) : List ℕ :=
  (List.range a.length).filter (fun i => a.getD i 0 = c)

def clusterMembers (data : List FlexibleVector) (a : List ℕ) (c : ℕ) : List FlexibleVector :=
  (memberIdx a c).map (getV data)

/-- Coordinate-wise mean accumulated in dense accumulators regardless of the
input encoding. -/
def meanVec (dim : ℕ) (vs : List FlexibleVector) : DenseVec :=
  vscale (Q.inv ⟨(vs.length : ℤ), 1⟩) (vsum dim (vs.map (FlexibleVector.toDenseVec dim)))

/-- Modelled from the spec: reseeding policy for degenerate clusters picks
the dataset vector currently farthest, by the active metric, from its own
assigned centroid. -/
def farthestIdx (sph : Bool) (data : List FlexibleVector) (a : List ℕ)
    (cents : List DenseVec) : ℕ :=
  idxMax ((List.range data.length).map (fun i =>
    assignMetric sph (getV data i) (cents.getD (a.getD i 0) [])))

def updateCentroid (sph : Bool) (data : List FlexibleVector) (dim : ℕ) (a : List ℕ)
    (cents : List DenseVec) (c : ℕ) : DenseVec :=
  let mem := clusterMembers data a c
  if sph then
    let m := meanVec dim mem
    if (vnormSq m).num = 0 then
      normalizeV ((getV data (farthestIdx true data a cents)).toDenseVec dim)
    else normalizeV m
  else
    if mem.isEmpty then (getV data (farthestIdx false data a cents)).toDenseVec dim
    else meanVec dim mem

def updateAll (sph : Bool) (data : List FlexibleVector) (dim : ℕ) (a : List ℕ)
    (cents : List DenseVec) : List DenseVec :=
  (List.range cents.length).map (updateCentroid sph data dim a cents)

/-! Convergence-controlled iteration: assign, then update, stopping when the
assignment is unchanged or the iteration cap is reached. -/

def iterStep (sph : Bool) (data : List FlexibleVector) (dim : ℕ)
    (s : List ℕ × List DenseVec) : List ℕ × List DenseVec :=
  let c' := updateAll sph data dim s.1 s.2
  (assignAll sph data c', c')

def lloydLoop (sph : Bool) (data : List FlexibleVector) (dim : ℕ) :
    ℕ → List ℕ × List DenseVec → List ℕ × List DenseVec
  | 0, s => s
  | f + 1, s =>
    let s' := iterStep sph data dim s
    if s'.1 = s.1 then s' else lloydLoop sph data dim f s'

/-! k-means++ initializer. -/

def qmin (a b : Q) : Q := if a.blt b then a else b

def minTo (sph : Bool) (v : FlexibleVector) : List DenseVec → Q
  | [] => qone
  | [c] => assignMetric sph v c
  | c :: c' :: cs => qmin (assignMetric sph v c) (minTo sph v (c' :: cs))

/-- Seeding weight of a vector: its dissimilarity to the nearest
already-chosen centroid, clamped to be non-negative. -/
def seedWeight (sph : Bool) (v : FlexibleVector) (chosen : List DenseVec) : Q :=
  qzero.qmax (minTo sph v chosen)

def kppAux (sph : Bool) (data : List FlexibleVector) (dim : ℕ) :
    ℕ → List DenseVec → ℕ → List DenseVec × ℕ
  | 0, acc, s => (acc, s)
  | t + 1, acc, s =>
    let ws := data.map (fun v => seedWeight sph v acc)
    let r := (randFrac s).1
    let j := cdfPick ws (r.mul (qsum ws))
    let cnew := (getV data j).toDenseVec dim
    kppAux sph data dim t (acc ++ [if sph then normalizeV cnew else cnew]) (randFrac s).2

/-- k-means++ seeding: first centroid uniformly at random, each further one
sampled with probability proportional to its distance to the nearest chosen
centroid. -/
def kppSeed (sph : Bool) (data : List FlexibleVector) (dim k seed : ℕ) :
    List DenseVec × ℕ :=
  let i0 := (randIdx seed data.length).1
  let c0 := (getV data i0).toDenseVec dim
  kppAux sph data dim (k - 1) [if sph then normalizeV c0 else c0] (randIdx seed data.length).2

/-! Objective and multi-restart selection. -/

/-- Per-vector objective contribution: squared distance in standard mode,
cosine similarity in spherical mode. -/
def objTerm (sph : Bool) (v : FlexibleVector) (c : DenseVec) : Q :=
  if sph then cosSim v c else distSq v c

def objectiveQ (sph : Bool) (data : List FlexibleVector) (a : List ℕ)
    (cents : List DenseVec) : Q :=
  qsum ((List.range data.length).map (fun i =>
    objTerm sph (getV data i) (cents.getD (a.getD i 0) [])))

structure ClusteringResult where
  assignment : List ℕ
  centroids : List DenseVec
  score : Q

def runSingle (sph : Bool) (data : List FlexibleVector) (dim k maxIter seed : ℕ) :
    ClusteringResult :=
  let c0 := (kppSeed sph data dim k seed).1
  let a0 := assignAll sph data c0
  let s := lloydLoop sph data dim maxIter (a0, c0)
  ⟨s.1, s.2, objectiveQ sph data s.1 s.2⟩

/-- Lower distortion wins in standard mode, higher similarity sum wins in
spherical mode; the first argument is the challenger. -/
def betterScore (sph : Bool) (x y : Q) : Bool := if sph then y.blt x else x.blt y

/-- Modelled from the spec: each restart derives its own fresh seed from the
configured random source. -/
def deriveSeed (seed i : ℕ) : ℕ := lcgNext (seed + i)

def pickBest (sph : Bool) : List ClusteringResult → ClusteringResult → ClusteringResult
  | [], best => best
  | r :: rs, best => pickBest sph rs (if betterScore sph r.score best.score then r else best)

def runOptimizer (sph : Bool) (data : List FlexibleVector) (dim k maxIter numRuns seed : ℕ) :
    ClusteringResult :=
  let runs := (List.range (max 1 numRuns)).map (fun i =>
    runSingle sph data dim k maxIter (deriveSeed seed i))
  match runs with
  | [] => ⟨[], [], qzero⟩
  | r :: rs => pickBest sph rs r

/-! Call surface.  Modelled from the spec: the KMeans object carries the
configuration (mode flag mutable before invocation, iteration cap, stopping
tolerance, seed); Cluster has a dense and a sparse overload, both validating
their input eagerly before any iteration begins. -/

inductive KMeansError where
  | invalidClusterCount
  | emptyDataset
  | dimensionMismatch
  | malformedSparseVector
deriving Repr, DecidableEq

structure KMeans where
  UseSphericalKMeans : Bool
  MaxIterations : ℕ
  ConvergenceEpsilon : Q
  RandomSeed : ℕ

def denseDim (data : List (List Q)) : ℕ := (data.getD 0 []).length

def dimsOk (data : List (List Q)) : Bool := data.all (fun v => v.length = denseDim data)

def rowAsc : List (ℤ × Q) → Bool
  | [] => true
  | [_] => true
  | p :: p' :: rest => (p.1 < p'.1 : Bool) && rowAsc (p' :: rest)

def rowOk (r : List (ℤ × Q)) : Bool := rowAsc r && r.all (fun p => (0 ≤ p.1 : Bool))

def rowDim (r : List (ℤ × Q)) : ℕ := r.foldr (fun p m => max (p.1.toNat + 1) m) 0

def sparseDim (rows : List (List (ℤ × Q))) : ℕ := rows.foldr (fun r m => max (rowDim r) m) 0

/-- Dense overload of the primary operation. -/
def KMeans.Cluster (km : KMeans) (data : List (List Q)) (k : ℤ) (numRuns : ℕ) :
    Except KMeansError ClusteringResult :=
  if data.isEmpty then .error .emptyDataset
  else if k ≤ 0 ∨ (data.length : ℤ) < k then .error .invalidClusterCount
  else if dimsOk data then
    .ok (runOptimizer km.UseSphericalKMeans (data.map .dense) (denseDim data) k.toNat
      km.MaxIterations numRuns km.RandomSeed)
  else .error .dimensionMismatch

/-- Sparse overload of the primary operation. -/
def KMeans.ClusterSparse (km : KMeans) (rows : List (List (ℤ × Q))) (k : ℤ) (numRuns : ℕ) :
    Except KMeansError ClusteringResult :=
  if rows.isEmpty then .error .emptyDataset
  else if k ≤ 0 ∨ (rows.length : ℤ) < k then .error .invalidClusterCount
  else if rows.all rowOk then
    .ok (runOptimizer km.UseSphericalKMeans (rows.map .sparse) (sparseDim rows) k.toNat
      km.MaxIterations numRuns km.RandomSeed)
  else .error .malformedSparseVector

/-! Predicates and fixtures used by the statements of the verified
properties. -/

/-- Validity of a vector for a dataset of the given dimension: dense vectors
have exactly that length, sparse vectors carry strictly ascending,
non-negative, in-range indices. -/
def ValidVec (dim : ℕ) : FlexibleVector → Prop
  | .dense xs => xs.length = dim
  | .sparse ps =>
    List.Chain' (fun p q : ℤ × Q => p.1 < q.1) ps ∧ ∀ p ∈ ps, 0 ≤ p.1 ∧ p.1 < (dim : ℤ)

/-- Well-formedness of an iteration state: the assignment covers the dataset
with cluster indices below k, and there are k centroids of the dataset
dimension. -/
def StateWF (data : List FlexibleVector) (dim k : ℕ) (s : List ℕ × List DenseVec) : Prop :=
  s.1.length = data.length ∧ (∀ j ∈ s.1, j < k) ∧ s.2.length = k ∧ ∀ c ∈ s.2, c.length = dim

/-- Mode-aware comparison of objective scores: in standard mode lower
distortion is no worse, in spherical mode higher similarity is no worse. -/
def noWorse (sph : Bool) (x y : ℚ) : Prop := if sph then y ≤ x else x ≤ y

/-- The dense concrete scenario dataset [[0.1,0.8],[0.2,0.7],[0.5,0.45],[0.6,0.5]]. -/
def dataC8 : List (List Q) :=
  [[⟨1, 10⟩, ⟨4, 5⟩], [⟨1, 5⟩, ⟨7, 10⟩], [⟨1, 2⟩, ⟨9, 20⟩], [⟨3, 5⟩, ⟨1, 2⟩]]

/-- The sparse concrete scenario dataset: the dense one restricted to sparse
indices 0 and 3. -/
def rowsC9 : List (List (ℤ × Q)) :=
  [[(0, ⟨1, 10⟩), (3, ⟨4, 5⟩)], [(0, ⟨1, 5⟩), (3, ⟨7, 10⟩)],
   [(0, ⟨1, 2⟩), (3, ⟨9, 20⟩)], [(0, ⟨3, 5⟩), (3, ⟨1, 2⟩)]]

/-- A sample configuration used to instantiate proved properties on concrete
runs (standard mode, default-style iteration cap). -/
def exKmStd : KMeans := ⟨false, 100, ⟨1, 1000000⟩, 7⟩

/-- A sample spherical-mode configuration. -/
def exKmSph : KMeans := ⟨true, 100, ⟨1, 1000000⟩, 7⟩

/-- The concrete result of a sample standard-mode clustering call. -/
def exResC1 : ClusteringResult :=
  match exKmStd.Cluster dataC8 2 1 with
  | .ok r => r
  | .error _ => ⟨[], [], qzero⟩

/-- The concrete result of a sample spherical-mode sparse clustering call. -/
def exResC3 : ClusteringResult :=
  match exKmSph.ClusterSparse rowsC9 2 1 with
  | .ok r => r
  | .error _ => ⟨[], [], qzero⟩

/-- The concrete result of a sample three-restart standard-mode call. -/
def exResC7 : ClusteringResult :=
  match exKmStd.Cluster dataC8 2 3 with
  | .ok r => r
  | .error _ => ⟨[], [], qzero⟩

/-- The concrete scenario datasets as FlexibleVector lists. -/
def dataC8F : List FlexibleVector := dataC8.map .dense

def rowsC9F : List FlexibleVector := rowsC9.map .sparse

/-- The dense form of a concrete scenario vector (dimension 2). -/
def dvecC8 (i : ℕ) : DenseVec := (getV dataC8F i).toDenseVec 2

/-- The normalized dense form of a sparse scenario vector (dimension 4). -/
def dvecC9 (i : ℕ) : DenseVec := normalizeV ((getV rowsC9F i).toDenseVec 4)

/-- Boolean check that a four-entry assignment groups vectors 0, 1 against
vectors 2, 3. -/
def groupOK (a : List ℕ) : Bool :=
  (a.getD 0 9 == a.getD 1 9) && ((a.getD 2 9 == a.getD 3 9) &&
    !(a.getD 0 9 == a.getD 2 9))

/-- Boolean check that a centroid has squared norm within 1e-5 of one. -/
def normOK (c : DenseVec) : Bool := ((vnormSq c).sub qone).qabs.ble ⟨1, 100000⟩

/-- The k-means++ second-pick weight list of the dense scenario after the
first centroid was seeded from vector i. -/
def wsC8 (i : ℕ) : List Q := dataC8F.map (fun v => seedWeight false v [dvecC8 i])

/-- The k-means++ second-pick weight list of the spherical sparse scenario
after the first centroid was seeded from vector i. -/
def wsC9 (i : ℕ) : List Q := rowsC9F.map (fun v => seedWeight true v [dvecC9 i])

/-- A second, syntactically separate copy of the sample configuration. -/
def exKmStd2 : KMeans := ⟨false, 100, ⟨1, 1000000⟩, 7⟩

/-- A dense dataset whose two vectors have different lengths. -/
def dataMismatch : List (List Q) := [[⟨1, 2⟩], [⟨1, 2⟩, ⟨1, 3⟩]]

/-- A sparse dataset with one out-of-order row. -/
def rowsBad : List (List (ℤ × Q)) := [[(3, ⟨1, 2⟩), (0, ⟨1, 3⟩)]]

/-! Rational-side mirrors of the vector operations.  The analytic statements
interpret model vectors entry-wise through Q.toRat into these. -/

def dotR : List ℚ → List ℚ → ℚ
  | [], _ => 0
  | _, [] => 0
  | x :: xs, y :: ys => x * y + dotR xs ys

def normSqR (v : List ℚ) : ℚ := dotR v v

def addR : List ℚ → List ℚ → List ℚ := List.zipWith (· + ·)

def scaleR (t : ℚ) (v : List ℚ) : List ℚ := v.map (t * ·)

def subR : List ℚ → List ℚ → List ℚ := List.zipWith (· - ·)

def sumR (d : ℕ) (vs : List (List ℚ)) : List ℚ := vs.foldr addR (List.replicate d 0)

def toRatV (v : DenseVec) : List ℚ := v.map Q.toRat

/-! Interpretation lemmas for the exact-fraction layer and the integer
square root. -/

theorem Q.den_pos (a : Q) : (0 : ℚ) < ((a.den : ℕ) : ℚ) := by
  exact_mod_cast a.den.pos

theorem Q.den_ne (a : Q) : ((a.den : ℕ) : ℚ) ≠ 0 := ne_of_gt a.den_pos

theorem toRat_qzero : qzero.toRat = 0 := by simp [qzero, Q.toRat]

theorem toRat_qone : qone.toRat = 1 := by norm_num [qone, Q.toRat]

theorem Q.toRat_add (a b : Q) : (a.add b).toRat = a.toRat + b.toRat := by
  unfold Q.toRat Q.add
  rw [div_add_div _ _ a.den_ne b.den_ne]
  push_cast [PNat.mul_coe]
  ring_nf

theorem Q.toRat_mul (a b : Q) : (a.mul b).toRat = a.toRat * b.toRat := by
  unfold Q.toRat Q.mul
  rw [div_mul_div_comm]
  push_cast [PNat.mul_coe]
  ring_nf

theorem Q.toRat_neg (a : Q) : a.neg.toRat = -a.toRat := by
  unfold Q.toRat Q.neg
  push_cast
  ring_nf

theorem Q.toRat_sub (a b : Q) : (a.sub b).toRat = a.toRat - b.toRat := by
  unfold Q.sub
  rw [Q.toRat_add, Q.toRat_neg]
  ring

theorem Q.toRat_inv (a : Q) : a.inv.toRat = a.toRat⁻¹ := by
  obtain ⟨n, d⟩ := a
  match n with
  | Int.ofNat 0 =>
      simp [Q.inv, Q.toRat, qzero]
  | Int.ofNat (m + 1) =>
      show Q.toRat ⟨((d : ℕ) : ℤ), ⟨m + 1, Nat.succ_pos m⟩⟩ = _
      unfold Q.toRat
      rw [inv_div]
      norm_num
  | Int.negSucc m =>
      show Q.toRat ⟨-((d : ℕ) : ℤ), ⟨m + 1, Nat.succ_pos m⟩⟩ = _
      unfold Q.toRat
      rw [inv_div]
      push_cast
      rw [div_neg, neg_div]
      norm_num

theorem Q.toRat_div (a b : Q) : (a.div b).toRat = a.toRat / b.toRat := by
  unfold Q.div
  rw [Q.toRat_mul, Q.toRat_inv, div_eq_mul_inv]

theorem Q.blt_iff (a b : Q) : a.blt b = true ↔ a.toRat < b.toRat := by
  unfold Q.blt Q.toRat
  rw [div_lt_div_iff a.den_pos b.den_pos]
  simp only [decide_eq_true_eq]
  exact_mod_cast Iff.rfl

theorem Q.ble_iff (a b : Q) : a.ble b = true ↔ a.toRat ≤ b.toRat := by
  unfold Q.ble Q.toRat
  rw [div_le_div_iff a.den_pos b.den_pos]
  simp only [decide_eq_true_eq]
  exact_mod_cast Iff.rfl

theorem Q.blt_false_iff (a b : Q) : a.blt b = false ↔ b.toRat ≤ a.toRat := by
  rw [← not_lt, ← Q.blt_iff]
  simp

theorem Q.toRat_qabs (a : Q) : a.qabs.toRat = |a.toRat| := by
  unfold Q.qabs Q.toRat
  rw [abs_div, abs_of_pos a.den_pos]
  congr 1
  push_cast [Int.cast_natAbs]
  norm_num

theorem Q.toRat_qmax (a b : Q) : (a.qmax b).toRat = max a.toRat b.toRat := by
  unfold Q.qmax
  rcases h : a.blt b with _ | _
  · rw [Q.blt_false_iff] at h
    simp [max_eq_left h]
  · rw [Q.blt_iff] at h
    simp [max_eq_right (le_of_lt h)]

theorem Q.num_zero_iff (a : Q) : a.num = 0 ↔ a.toRat = 0 := by
  unfold Q.toRat
  rw [div_eq_zero_iff]
  constructor
  · intro h; left; exact_mod_cast h
  · rintro (h | h)
    · exact_mod_cast h
    · exact absurd h a.den_ne

theorem sqrtAux_spec (f : ℕ) : ∀ lo hi n : ℕ, lo * lo ≤ n → n < hi * hi →
    lo < hi → hi ≤ lo + f + 1 →
    sqrtAux f lo hi n * sqrtAux f lo hi n ≤ n ∧
      n < (sqrtAux f lo hi n + 1) * (sqrtAux f lo hi n + 1) := by
  induction f with
  | zero =>
      intro lo hi n hlo hhi hlt hle
      have : hi = lo + 1 := by omega
      subst this
      simpa [sqrtAux] using ⟨hlo, hhi⟩
  | succ f ih =>
      intro lo hi n hlo hhi hlt hle
      by_cases hstop : hi ≤ lo + 1
      · have : hi = lo + 1 := by omega
        subst this
        simpa [sqrtAux, hstop] using ⟨hlo, hhi⟩
      · have hlo2 : lo + 2 ≤ hi := by omega
        have hmidlo : lo < (lo + hi) / 2 := by omega
        have hmidhi : (lo + hi) / 2 < hi := by omega
        by_cases hm : ((lo + hi) / 2) * ((lo + hi) / 2) ≤ n
        · have := ih ((lo + hi) / 2) hi n hm hhi hmidhi (by omega)
          simpa [sqrtAux, hstop, hm] using this
        · have := ih lo ((lo + hi) / 2) n hlo (by omega) hmidlo (by omega)
          simpa [sqrtAux, hstop, hm] using this

theorem intSqrt_spec (n : ℕ) :
    intSqrt n * intSqrt n ≤ n ∧ n < (intSqrt n + 1) * (intSqrt n + 1) := by
  unfold intSqrt
  exact sqrtAux_spec (n + 2) 0 (n + 1) n (by omega) (by nlinarith) (by omega) (by omega)

theorem intSqrt_large {n : ℕ} (h : 2 ^ 40 ≤ n) : 2 ^ 20 ≤ intSqrt n := by
  by_contra hlt
  push_neg at hlt
  have h2 := (intSqrt_spec n).2
  have : (intSqrt n + 1) * (intSqrt n + 1) ≤ 2 ^ 20 * 2 ^ 20 := by
    apply Nat.mul_le_mul <;> omega
  omega

/-! Transfer lemmas from the model operations to their rational mirrors. -/

theorem toRat_qsum (l : List Q) : (qsum l).toRat = (l.map Q.toRat).sum := by
  induction l with
  | nil => simpa [qsum] using toRat_qzero
  | cons x xs ih => simp [qsum, Q.toRat_add] at ih ⊢; rw [ih]

theorem toRatV_vdot (v w : DenseVec) : (vdot v w).toRat = dotR (toRatV v) (toRatV w) := by
  induction v generalizing w with
  | nil => cases w <;> simp [vdot, dotR, toRatV, toRat_qzero]
  | cons x xs ih =>
      cases w with
      | nil => simp [vdot, dotR, toRatV, toRat_qzero]
      | cons y ys => simp [vdot, dotR, toRatV, Q.toRat_add, Q.toRat_mul, ih]

theorem toRatV_vnormSq (v : DenseVec) : (vnormSq v).toRat = normSqR (toRatV v) := by
  simp [vnormSq, normSqR, toRatV_vdot]

theorem toRatV_vadd (v w : DenseVec) : toRatV (vadd v w) = addR (toRatV v) (toRatV w) := by
  induction v generalizing w with
  | nil => simp [vadd, addR, toRatV]
  | cons x xs ih =>
      cases w with
      | nil => simp [vadd, addR, toRatV]
      | cons y ys => simp [vadd, addR, toRatV, Q.toRat_add] at ih ⊢; rw [ih]

theorem toRatV_vscale (a : Q) (v : DenseVec) :
    toRatV (vscale a v) = scaleR a.toRat (toRatV v) := by
  simp [vscale, scaleR, toRatV, List.map_map, Function.comp, Q.toRat_mul]

theorem toRatV_vzero (d : ℕ) : toRatV (vzero d) = List.replicate d 0 := by
  simp [vzero, toRatV, List.map_replicate, toRat_qzero]

theorem toRatV_vsum (d : ℕ) (vs : List DenseVec) :
    toRatV (vsum d vs) = sumR d (vs.map toRatV) := by
  induction vs with
  | nil => simp [vsum, sumR, toRatV_vzero]
  | cons v vs ih => simp [vsum, sumR, toRatV_vadd] at ih ⊢; rw [ih]

/-! Scatter and conversion lemmas. -/

theorem scatterPairs_length (ps : List (ℤ × Q)) (buf : DenseVec) :
    (scatterPairs ps buf).length = buf.length := by
  induction ps generalizing buf with
  | nil => rfl
  | cons p ps ih => simp [scatterPairs, List.foldl_cons] at ih ⊢; rw [ih]; simp

theorem scatterPairs_getD_ne (ps : List (ℤ × Q)) (buf : DenseVec) (t : ℕ)
    (h : ∀ p ∈ ps, p.1.toNat ≠ t) :
    (scatterPairs ps buf).getD t qzero = buf.getD t qzero := by
  induction ps generalizing buf with
  | nil => rfl
  | cons p ps ih =>
      show (scatterPairs ps (buf.set p.1.toNat p.2)).getD t qzero = _
      rw [ih _ fun q hq => h q (List.mem_cons_of_mem p hq)]
      have hne : p.1.toNat ≠ t := h p (List.mem_cons_self p ps)
      simp [List.getD_eq_getElem?_getD, List.getElem?_set_ne hne]

theorem toSparseAux_idx_ge (eps : Q) (v : DenseVec) :
    ∀ (i0 : ℕ) p, p ∈ toSparseAux eps i0 v → (i0 : ℤ) ≤ p.1 := by
  induction v with
  | nil => intro i0 p hp; simp [toSparseAux] at hp
  | cons x xs ih =>
      intro i0 p hp
      by_cases hk : eps.blt x.qabs
      · simp [toSparseAux, hk] at hp
        rcases hp with hp | hp
        · simp [hp]
        · have := ih (i0 + 1) p hp
          push_cast at this ⊢
          omega
      · simp [toSparseAux, hk] at hp
        have := ih (i0 + 1) p hp
        push_cast at this ⊢
        omega

theorem toSparseAux_mem (eps : Q) (v : DenseVec) :
    ∀ (i0 : ℕ) p, p ∈ toSparseAux eps i0 v →
      ∃ t, t < v.length ∧ p.1 = ((i0 + t : ℕ) : ℤ) ∧ p.2 = v.getD t qzero ∧
        eps.blt p.2.qabs = true := by
  induction v with
  | nil => intro i0 p hp; simp [toSparseAux] at hp
  | cons x xs ih =>
      intro i0 p hp
      by_cases hk : eps.blt x.qabs
      · simp only [toSparseAux, hk, if_true, List.mem_cons] at hp
        rcases hp with hp | hp
        · exact ⟨0, by simp, by simp [hp], by simp [hp], by simp [hp, hk]⟩
        · obtain ⟨t, ht, h1, h2, h3⟩ := ih (i0 + 1) p hp
          exact ⟨t + 1, by simpa using ht, by omega, by simpa using h2, h3⟩
      · simp only [toSparseAux, hk, if_false] at hp
        obtain ⟨t, ht, h1, h2, h3⟩ := ih (i0 + 1) p hp
        exact ⟨t + 1, by simpa using ht, by omega, by simpa using h2, h3⟩

theorem toSparseAux_chain (eps : Q) (v : DenseVec) :
    ∀ i0 : ℕ, List.Chain' (fun p q : ℤ × Q => p.1 < q.1) (toSparseAux eps i0 v) := by
  induction v with
  | nil => intro i0; simp [toSparseAux]
  | cons x xs ih =>
      intro i0
      by_cases hk : eps.blt x.qabs
      · simp only [toSparseAux, hk, if_true]
        apply List.chain'_cons'.mpr
        refine ⟨fun q hq => ?_, ih (i0 + 1)⟩
        have hmem := List.mem_of_mem_head? hq
        have := toSparseAux_idx_ge eps xs (i0 + 1) q hmem
        simp only
        push_cast at this ⊢
        omega
      · simpa [toSparseAux, hk] using ih (i0 + 1)

theorem blt_zero_abs_false {x : Q} (h : qzero.blt x.qabs = false) : x.toRat = 0 := by
  rw [Q.blt_false_iff, Q.toRat_qabs, toRat_qzero] at h
  exact abs_eq_zero.mp (le_antisymm h (abs_nonneg _))

theorem roundtrip_aux (v : DenseVec) :
    ∀ (i0 : ℕ) (buf : DenseVec), i0 + v.length ≤ buf.length →
      (∀ t, t < v.length → (buf.getD (i0 + t) qzero).toRat = 0) →
      ∀ t, t < v.length →
        ((scatterPairs (toSparseAux qzero i0 v) buf).getD (i0 + t) qzero).toRat
          = (v.getD t qzero).toRat := by
  induction v with
  | nil => intro i0 buf _ _ t ht; simp at ht
  | cons x xs ih =>
      intro i0 buf hlen hz t ht
      have hrest : ∀ p ∈ toSparseAux qzero (i0 + 1) xs, p.1.toNat ≠ i0 := by
        intro p hp
        have := toSparseAux_idx_ge qzero xs (i0 + 1) p hp
        omega
      by_cases hk : qzero.blt x.qabs
      · simp only [toSparseAux, hk, if_true]
        show ((scatterPairs (toSparseAux qzero (i0 + 1) xs)
          (buf.set ((i0 : ℤ)).toNat x)).getD (i0 + t) qzero).toRat = _
        cases t with
        | zero =>
            show ((scatterPairs (toSparseAux qzero (i0 + 1) xs)
              (buf.set ((i0 : ℤ)).toNat x)).getD i0 qzero).toRat = x.toRat
            rw [scatterPairs_getD_ne _ _ _ (by simpa using hrest)]
            have hi0 : i0 < buf.length := by simp only [List.length_cons] at hlen; omega
            simp [List.getD_eq_getElem?_getD, List.getElem?_set_eq_of_lt x (by simpa using hi0)]
        | succ t' =>
            have hzs : ∀ s, s < xs.length →
                (((buf.set ((i0 : ℤ)).toNat x)).getD ((i0 + 1) + s) qzero).toRat = 0 := by
              intro s hs
              have hne : ((i0 : ℤ)).toNat ≠ (i0 + 1) + s := by simp; omega
              rw [List.getD_eq_getElem?_getD, List.getElem?_set_ne hne,
                ← List.getD_eq_getElem?_getD]
              have := hz (s + 1) (by simpa using hs)
              simpa [Nat.add_assoc, Nat.add_comm 1 s] using this
            have := ih (i0 + 1) (buf.set ((i0 : ℤ)).toNat x)
              (by simp at hlen ⊢; omega) hzs t' (by simpa using ht)
            simp only [List.getD_cons_succ]
            rw [show i0 + (t' + 1) = (i0 + 1) + t' by omega]
            exact this
      · rw [Bool.not_eq_true] at hk
        simp only [toSparseAux, hk, Bool.false_eq_true, if_false]
        cases t with
        | zero =>
            show ((scatterPairs (toSparseAux qzero (i0 + 1) xs) buf).getD i0 qzero).toRat
              = x.toRat
            rw [scatterPairs_getD_ne _ _ _ hrest]
            have h0 := hz 0 (by simp)
            have hx := blt_zero_abs_false hk
            simpa [hx] using h0
        | succ t' =>
            have hzs : ∀ s, s < xs.length → ((buf.getD ((i0 + 1) + s) qzero)).toRat = 0 := by
              intro s hs
              have := hz (s + 1) (by simpa using hs)
              simpa [Nat.add_assoc, Nat.add_comm 1 s] using this
            have := ih (i0 + 1) buf (by simp at hlen ⊢; omega) hzs t' (by simpa using ht)
            simp only [List.getD_cons_succ]
            rw [show i0 + (t' + 1) = (i0 + 1) + t' by omega]
            exact this

theorem toRatV_ext (xs ys : DenseVec) (hl : xs.length = ys.length)
    (h : ∀ t, t < xs.length → (xs.getD t qzero).toRat = (ys.getD t qzero).toRat) :
    toRatV xs = toRatV ys := by
  apply List.ext_getElem (by simpa [toRatV] using hl)
  intro i h1 h2
  simp only [toRatV, List.length_map] at h1 h2
  have := h i h1
  simpa [toRatV, List.getD_eq_getElem?_getD, List.getElem?_eq_getElem, h1, h2] using this

/-- C4: converting a dense vector to sparse form with threshold epsilon = 0 and
back with the original dimension reproduces the vector exactly (value-wise, at
the ℚ interpretation), and the sparse intermediate lists its (index, value)
pairs in ascending index order. -/
theorem claim_C4_conversion_roundtrip (v : DenseVec) :
    toRatV (ToDense (ToSparse v qzero) v.length) = toRatV v ∧
      List.Chain' (fun p q : ℤ × Q => p.1 < q.1) (ToSparse v qzero) := by
  refine ⟨?_, toSparseAux_chain qzero v 0⟩
  apply toRatV_ext
  · simp [ToDense, scatterPairs_length, vzero]
  · intro t ht
    have hlen : (ToDense (ToSparse v qzero) v.length).length = v.length := by
      simp [ToDense, scatterPairs_length, vzero]
    rw [hlen] at ht
    have hz : ∀ s, s < v.length → ((vzero v.length).getD (0 + s) qzero).toRat = 0 := by
      intro s hs
      rw [List.getD_eq_getElem?_getD]
      simp [vzero, List.getElem?_replicate, hs, toRat_qzero]
    have := roundtrip_aux v 0 (vzero v.length) (by simp [vzero]) hz t ht
    simpa [ToDense, ToSparse] using this

/-- C10: the no-argument sparse conversion applies the default near-zero
threshold, and its result enumerates, via AsEnumerable, (index, value) pairs
in ascending index order, each pair a genuine over-threshold entry of the
dense vector at a non-negative in-range index. -/
theorem claim_C10_default_tosparse_enumerable (v : DenseVec) :
    AsEnumerable (ToSparseDefault v) = ToSparse v defaultSparseEpsilon ∧
      List.Chain' (fun p q : ℤ × Q => p.1 < q.1) (AsEnumerable (ToSparseDefault v)) ∧
      ∀ p ∈ AsEnumerable (ToSparseDefault v),
        0 ≤ p.1 ∧ p.1.toNat < v.length ∧ p.2 = v.getD p.1.toNat qzero ∧
          defaultSparseEpsilon.toRat < |p.2.toRat| := by
  refine ⟨rfl, toSparseAux_chain _ v 0, fun p hp => ?_⟩
  obtain ⟨t, ht, h1, h2, h3⟩ :=
    toSparseAux_mem defaultSparseEpsilon v 0 p (by simpa [AsEnumerable, ToSparseDefault, ToSparse] using hp)
  have habs := (Q.blt_iff _ _).mp h3
  rw [Q.toRat_qabs] at habs
  refine ⟨by simp [h1], ?_, ?_, habs⟩
  · simpa [h1] using ht
  · simpa [h1] using h2

/-! Shape lemmas: sizes of the structures produced at each stage of the
pipeline. -/

theorem toDenseVec_length (dim : ℕ) (v : FlexibleVector) : (v.toDenseVec dim).length = dim := by
  cases v with
  | dense xs =>
      simp only [FlexibleVector.toDenseVec, List.length_append, List.length_take,
        List.length_replicate]
      omega
  | sparse ps => simp [FlexibleVector.toDenseVec, ToDense, scatterPairs_length, vzero]

theorem vscale_length (a : Q) (v : DenseVec) : (vscale a v).length = v.length := by
  simp [vscale]

theorem normalizeV_length (m : DenseVec) : (normalizeV m).length = m.length := by
  unfold normalizeV
  split
  · rfl
  · simp [vscale]

theorem vadd_length (v w : DenseVec) : (vadd v w).length = min v.length w.length := by
  simp [vadd]

theorem vsum_length (dim : ℕ) (vs : List DenseVec) (h : ∀ v ∈ vs, v.length = dim) :
    (vsum dim vs).length = dim := by
  induction vs with
  | nil => simp [vsum, vzero]
  | cons v vs ih =>
      have h1 : v.length = dim := h v (List.mem_cons_self v vs)
      have h2 := ih fun w hw => h w (List.mem_cons_of_mem v hw)
      simp only [vsum, List.foldr_cons] at h2 ⊢
      rw [vadd_length, h1, h2, Nat.min_self]

theorem meanVec_length (dim : ℕ) (vs : List FlexibleVector) : (meanVec dim vs).length = dim := by
  unfold meanVec
  rw [vscale_length]
  apply vsum_length
  intro v hv
  obtain ⟨w, _, rfl⟩ := List.mem_map.mp hv
  exact toDenseVec_length dim w

theorem updateCentroid_length (sph : Bool) (data : List FlexibleVector) (dim : ℕ)
    (a : List ℕ) (cents : List DenseVec) (c : ℕ) :
    (updateCentroid sph data dim a cents c).length = dim := by
  unfold updateCentroid
  cases sph with
  | false =>
      simp only [Bool.false_eq_true, if_false]
      split
      · exact toDenseVec_length dim _
      · exact meanVec_length dim _
  | true =>
      simp only [if_true]
      split
      · rw [normalizeV_length]; exact toDenseVec_length dim _
      · rw [normalizeV_length]; exact meanVec_length dim _

theorem updateAll_length (sph : Bool) (data : List FlexibleVector) (dim : ℕ)
    (a : List ℕ) (cents : List DenseVec) :
    (updateAll sph data dim a cents).length = cents.length := by
  simp [updateAll]

theorem updateAll_mem_length (sph : Bool) (data : List FlexibleVector) (dim : ℕ)
    (a : List ℕ) (cents : List DenseVec) :
    ∀ c ∈ updateAll sph data dim a cents, c.length = dim := by
  intro c hc
  obtain ⟨i, _, rfl⟩ := List.mem_map.mp hc
  exact updateCentroid_length sph data dim a cents i

theorem idxMin_lt : ∀ l : List Q, l ≠ [] → idxMin l < l.length := by
  intro l
  induction l with
  | nil => simp
  | cons x xs ih =>
      intro _
      cases xs with
      | nil => simp [idxMin]
      | cons y ys =>
          have hlt := ih (by simp)
          simp only [idxMin]
          split
          · simpa using hlt
          · simp

theorem idxMin_le (l : List Q) : ∀ j, j < l.length →
    (getQ l (idxMin l)).toRat ≤ (getQ l j).toRat := by
  induction l with
  | nil => intro j hj; simp at hj
  | cons x xs ih =>
      intro j hj
      cases xs with
      | nil =>
          have : j = 0 := by simpa using hj
          subst this
          simp [idxMin]
      | cons y ys =>
          simp only [idxMin]
          by_cases hb : (getQ (y :: ys) (idxMin (y :: ys))).blt x = true
          · rw [if_pos hb]
            have hx := (Q.blt_iff _ _).mp hb
            cases j with
            | zero =>
                simp only [getQ, List.getD_cons_succ, List.getD_cons_zero]
                exact le_of_lt (by simpa [getQ] using hx)
            | succ j' =>
                simp only [getQ, List.getD_cons_succ]
                exact (by simpa [getQ] using ih j' (by simpa using hj))
          · rw [if_neg hb]
            have hx := (Q.blt_false_iff _ _).mp (by simpa using hb)
            cases j with
            | zero => simp
            | succ j' =>
                simp only [getQ, List.getD_cons_zero, List.getD_cons_succ]
                calc x.toRat ≤ (getQ (y :: ys) (idxMin (y :: ys))).toRat := hx
                  _ ≤ (getQ (y :: ys) j').toRat := ih j' (by simpa using hj)
                  _ = ((y :: ys).getD j' qzero).toRat := rfl

theorem argBest_lt (sph : Bool) (v : FlexibleVector) (cents : List DenseVec)
    (h : cents ≠ []) : argBest sph v cents < cents.length := by
  have := idxMin_lt (cents.map (assignMetric sph v)) (by simpa using h)
  simpa [argBest] using this

theorem assignAll_length (sph : Bool) (data : List FlexibleVector) (cents : List DenseVec) :
    (assignAll sph data cents).length = data.length := by
  simp [assignAll]

theorem assignAll_mem_lt (sph : Bool) (data : List FlexibleVector) (cents : List DenseVec)
    (h : cents ≠ []) : ∀ j ∈ assignAll sph data cents, j < cents.length := by
  intro j hj
  obtain ⟨v, _, rfl⟩ := List.mem_map.mp hj
  exact argBest_lt sph v cents h

theorem iterStep_wf (sph : Bool) (data : List FlexibleVector) (dim k : ℕ)
    (s : List ℕ × List DenseVec) (hk : 0 < k) (h : StateWF data dim k s) :
    StateWF data dim k (iterStep sph data dim s) := by
  obtain ⟨h1, h2, h3, h4⟩ := h
  have hlen : (updateAll sph data dim s.1 s.2).length = k := by
    rw [updateAll_length, h3]
  refine ⟨assignAll_length _ _ _, ?_, hlen, updateAll_mem_length _ _ _ _ _⟩
  intro j hj
  have hne : updateAll sph data dim s.1 s.2 ≠ [] := by
    intro hnil
    rw [hnil] at hlen
    simp at hlen
    omega
  have := assignAll_mem_lt sph data _ hne j hj
  rwa [hlen] at this

theorem lloydLoop_wf (sph : Bool) (data : List FlexibleVector) (dim k : ℕ) (hk : 0 < k) :
    ∀ (fuel : ℕ) (s : List ℕ × List DenseVec), StateWF data dim k s →
      StateWF data dim k (lloydLoop sph data dim fuel s) := by
  intro fuel
  induction fuel with
  | zero => intro s h; exact h
  | succ f ih =>
      intro s h
      simp only [lloydLoop]
      split
      · exact iterStep_wf sph data dim k _ hk h
      · exact ih _ (iterStep_wf sph data dim k _ hk h)

theorem kppAux_shape (sph : Bool) (data : List FlexibleVector) (dim : ℕ) :
    ∀ (t : ℕ) (acc : List DenseVec) (s : ℕ), (∀ c ∈ acc, c.length = dim) →
      ((kppAux sph data dim t acc s).1.length = acc.length + t ∧
        ∀ c ∈ (kppAux sph data dim t acc s).1, c.length = dim) := by
  intro t
  induction t with
  | zero => intro acc s h; exact ⟨by simp [kppAux], by simpa [kppAux] using h⟩
  | succ t ih =>
      intro acc s h
      simp only [kppAux]
      have hacc : ∀ c ∈ acc ++ [if sph then
          normalizeV ((getV data (cdfPick (data.map fun v => seedWeight sph v acc)
            (((randFrac s).1).mul (qsum (data.map fun v => seedWeight sph v acc))))).toDenseVec dim)
        else (getV data (cdfPick (data.map fun v => seedWeight sph v acc)
            (((randFrac s).1).mul (qsum (data.map fun v => seedWeight sph v acc))))).toDenseVec dim],
          c.length = dim := by
        intro c hc
        rcases List.mem_append.mp hc with hc | hc
        · exact h c hc
        · have hc' := List.mem_singleton.mp hc
          subst hc'
          split
          · rw [normalizeV_length]; exact toDenseVec_length dim _
          · exact toDenseVec_length dim _
      have := ih _ (randFrac s).2 hacc
      constructor
      · rw [this.1]; simp; omega
      · exact this.2

theorem kppSeed_shape (sph : Bool) (data : List FlexibleVector) (dim k seed : ℕ)
    (hk : 0 < k) :
    (kppSeed sph data dim k seed).1.length = k ∧
      ∀ c ∈ (kppSeed sph data dim k seed).1, c.length = dim := by
  unfold kppSeed
  have hbase : ∀ c ∈ [if sph then
      normalizeV ((getV data (randIdx seed data.length).1).toDenseVec dim)
    else (getV data (randIdx seed data.length).1).toDenseVec dim], c.length = dim := by
    intro c hc
    have hc' := List.mem_singleton.mp hc
    subst hc'
    split
    · rw [normalizeV_length]; exact toDenseVec_length dim _
    · exact toDenseVec_length dim _
  have := kppAux_shape sph data dim (k - 1) _ (randIdx seed data.length).2 hbase
  refine ⟨?_, this.2⟩
  rw [this.1]
  simp
  omega

theorem runSingle_shape (sph : Bool) (data : List FlexibleVector) (dim k maxIter seed : ℕ)
    (hk : 0 < k) :
    (runSingle sph data dim k maxIter seed).assignment.length = data.length ∧
      (∀ j ∈ (runSingle sph data dim k maxIter seed).assignment, j < k) ∧
      (runSingle sph data dim k maxIter seed).centroids.length = k ∧
      ∀ c ∈ (runSingle sph data dim k maxIter seed).centroids, c.length = dim := by
  obtain ⟨hlen, hdim⟩ := kppSeed_shape sph data dim k seed hk
  have hne : (kppSeed sph data dim k seed).1 ≠ [] := by
    intro hnil
    rw [hnil] at hlen
    simp at hlen
    omega
  have hwf0 : StateWF data dim k
      (assignAll sph data (kppSeed sph data dim k seed).1, (kppSeed sph data dim k seed).1) := by
    refine ⟨assignAll_length _ _ _, ?_, hlen, hdim⟩
    intro j hj
    have := assignAll_mem_lt sph data _ hne j hj
    rwa [hlen] at this
  have := lloydLoop_wf sph data dim k hk maxIter _ hwf0
  obtain ⟨h1, h2, h3, h4⟩ := this
  exact ⟨h1, h2, h3, h4⟩

theorem pickBest_mem (sph : Bool) :
    ∀ (rs : List ClusteringResult) (best : ClusteringResult),
      pickBest sph rs best ∈ best :: rs := by
  intro rs
  induction rs with
  | nil => intro best; simp [pickBest]
  | cons r rs ih =>
      intro best
      simp only [pickBest]
      have := ih (if betterScore sph r.score best.score then r else best)
      rcases List.mem_cons.mp this with h | h
      · rw [h]
        split
        · simp
        · simp
      · simp [h]

theorem runOptimizer_mem (sph : Bool) (data : List FlexibleVector)
    (dim k maxIter numRuns seed : ℕ) :
    ∃ i, i < max 1 numRuns ∧
      runOptimizer sph data dim k maxIter numRuns seed
        = runSingle sph data dim k maxIter (deriveSeed seed i) := by
  obtain ⟨mm, hmm⟩ : ∃ mm, max 1 numRuns = mm + 1 := by
    refine ⟨max 1 numRuns - 1, ?_⟩
    have : 1 ≤ max 1 numRuns := le_max_left 1 numRuns
    omega
  unfold runOptimizer
  rw [hmm, List.range_succ_eq_map, List.map_cons]
  have hmem := pickBest_mem sph
    ((List.map Nat.succ (List.range mm)).map fun i =>
      runSingle sph data dim k maxIter (deriveSeed seed i))
    (runSingle sph data dim k maxIter (deriveSeed seed 0))
  rcases List.mem_cons.mp hmem with h | h
  · exact ⟨0, by omega, h⟩
  · obtain ⟨i, hi, hrun⟩ := List.mem_map.mp h
    obtain ⟨i', hi', rfl⟩ := List.mem_map.mp hi
    refine ⟨Nat.succ i', ?_, hrun.symm⟩
    have := List.mem_range.mp hi'
    omega

theorem clusterD_ok_inv {km : KMeans} {data : List (List Q)} {k : ℤ} {numRuns : ℕ}
    {res : ClusteringResult} (h : km.Cluster data k numRuns = .ok res) :
    data ≠ [] ∧ 1 ≤ k ∧ k ≤ (data.length : ℤ) ∧
      res = runOptimizer km.UseSphericalKMeans (data.map .dense) (denseDim data) k.toNat
        km.MaxIterations numRuns km.RandomSeed := by
  unfold KMeans.Cluster at h
  split at h
  · exact absurd h (by simp)
  · split at h
    · exact absurd h (by simp)
    · split at h
      · rename_i h1 h2 h3
        refine ⟨by simpa [List.isEmpty_iff] using h1, ?_, ?_, by simpa using h.symm⟩
        all_goals omega
      · exact absurd h (by simp)

theorem clusterS_ok_inv {km : KMeans} {rows : List (List (ℤ × Q))} {k : ℤ} {numRuns : ℕ}
    {res : ClusteringResult} (h : km.ClusterSparse rows k numRuns = .ok res) :
    rows ≠ [] ∧ 1 ≤ k ∧ k ≤ (rows.length : ℤ) ∧
      res = runOptimizer km.UseSphericalKMeans (rows.map .sparse) (sparseDim rows) k.toNat
        km.MaxIterations numRuns km.RandomSeed := by
  unfold KMeans.ClusterSparse at h
  split at h
  · exact absurd h (by simp)
  · split at h
    · exact absurd h (by simp)
    · split at h
      · rename_i h1 h2 h3
        refine ⟨by simpa [List.isEmpty_iff] using h1, ?_, ?_, by simpa using h.symm⟩
        all_goals omega
      · exact absurd h (by simp)

theorem clusterD_ok_shape {km : KMeans} {data : List (List Q)} {k : ℤ} {numRuns : ℕ}
    {res : ClusteringResult} (h : km.Cluster data k numRuns = .ok res) :
    1 ≤ k ∧ k ≤ (data.length : ℤ) ∧ res.assignment.length = data.length ∧
      (∀ j ∈ res.assignment, j < k.toNat) ∧ res.centroids.length = k.toNat := by
  obtain ⟨hne, hk1, hk2, hres⟩ := clusterD_ok_inv h
  have hkpos : 0 < k.toNat := by omega
  obtain ⟨i, _, hrun⟩ := runOptimizer_mem km.UseSphericalKMeans (data.map .dense)
    (denseDim data) k.toNat km.MaxIterations numRuns km.RandomSeed
  rw [hrun] at hres
  obtain ⟨s1, s2, s3, _⟩ := runSingle_shape km.UseSphericalKMeans (data.map .dense)
    (denseDim data) k.toNat km.MaxIterations (deriveSeed km.RandomSeed i) hkpos
  subst hres
  exact ⟨hk1, hk2, by simpa using s1, s2, s3⟩

theorem clusterS_ok_shape {km : KMeans} {rows : List (List (ℤ × Q))} {k : ℤ} {numRuns : ℕ}
    {res : ClusteringResult} (h : km.ClusterSparse rows k numRuns = .ok res) :
    1 ≤ k ∧ k ≤ (rows.length : ℤ) ∧ res.assignment.length = rows.length ∧
      (∀ j ∈ res.assignment, j < k.toNat) ∧ res.centroids.length = k.toNat := by
  obtain ⟨hne, hk1, hk2, hres⟩ := clusterS_ok_inv h
  have hkpos : 0 < k.toNat := by omega
  obtain ⟨i, _, hrun⟩ := runOptimizer_mem km.UseSphericalKMeans (rows.map .sparse)
    (sparseDim rows) k.toNat km.MaxIterations numRuns km.RandomSeed
  rw [hrun] at hres
  obtain ⟨s1, s2, s3, _⟩ := runSingle_shape km.UseSphericalKMeans (rows.map .sparse)
    (sparseDim rows) k.toNat km.MaxIterations (deriveSeed km.RandomSeed i) hkpos
  subst hres
  exact ⟨hk1, hk2, by simpa using s1, s2, s3⟩

/-- C1: every successful clustering call (either overload) has a valid cluster
count 1 ≤ k ≤ datasetSize and returns an Assignment with exactly datasetSize
entries, each an index in [0, k), together with exactly k centroids. -/
theorem claim_C1_result_shape :
    (∀ (km : KMeans) (data : List (List Q)) (k : ℤ) (numRuns : ℕ) (res : ClusteringResult),
      km.Cluster data k numRuns = .ok res →
        1 ≤ k ∧ k ≤ (data.length : ℤ) ∧ res.assignment.length = data.length ∧
          (∀ j ∈ res.assignment, j < k.toNat) ∧ res.centroids.length = k.toNat) ∧
    ∀ (km : KMeans) (rows : List (List (ℤ × Q))) (k : ℤ) (numRuns : ℕ) (res : ClusteringResult),
      km.ClusterSparse rows k numRuns = .ok res →
        1 ≤ k ∧ k ≤ (rows.length : ℤ) ∧ res.assignment.length = rows.length ∧
          (∀ j ∈ res.assignment, j < k.toNat) ∧ res.centroids.length = k.toNat :=
  ⟨fun _ _ _ _ _ h => clusterD_ok_shape h, fun _ _ _ _ _ h => clusterS_ok_shape h⟩

theorem claim_C1_result_shape_witness :
    exResC1.assignment.length = dataC8.length ∧ exResC1.centroids.length = (2 : ℤ).toNat := by
  have h : exKmStd.Cluster dataC8 2 1 = .ok exResC1 := rfl
  have := claim_C1_result_shape.1 exKmStd dataC8 2 1 exResC1 h
  exact ⟨this.2.2.1, this.2.2.2.2⟩

/-- C2: with identical configuration (mode, iteration cap, tolerance, random
seed) and identical input, two separate clustering calls return identical
results; the model consumes only the explicitly threaded seeded random
source. -/
theorem claim_C2_determinism :
    ∀ km1 km2 : KMeans, km1.UseSphericalKMeans = km2.UseSphericalKMeans →
      km1.MaxIterations = km2.MaxIterations →
      km1.ConvergenceEpsilon = km2.ConvergenceEpsilon →
      km1.RandomSeed = km2.RandomSeed →
      ∀ (data : List (List Q)) (rows : List (List (ℤ × Q))) (k : ℤ) (numRuns : ℕ),
        km1.Cluster data k numRuns = km2.Cluster data k numRuns ∧
          km1.ClusterSparse rows k numRuns = km2.ClusterSparse rows k numRuns := by
  intro km1 km2 h1 h2 h3 h4 data rows k numRuns
  obtain ⟨a1, b1, c1, d1⟩ := km1
  obtain ⟨a2, b2, c2, d2⟩ := km2
  simp only at h1 h2 h3 h4
  subst h1 h2 h3 h4
  exact ⟨rfl, rfl⟩

theorem claim_C2_determinism_witness :
    exKmStd.Cluster dataC8 2 1 = exKmStd2.Cluster dataC8 2 1 ∧
      exKmStd.ClusterSparse rowsC9 2 1 = exKmStd2.ClusterSparse rowsC9 2 1 :=
  claim_C2_determinism exKmStd exKmStd2 rfl rfl rfl rfl dataC8 rowsC9 2 1

theorem rowAsc_iff : ∀ r : List (ℤ × Q),
    rowAsc r = true ↔ List.Chain' (fun p q : ℤ × Q => p.1 < q.1) r := by
  intro r
  induction r with
  | nil => simp [rowAsc]
  | cons p rest ih =>
      cases rest with
      | nil => simp [rowAsc]
      | cons p' rest' =>
          rw [List.chain'_cons]
          simp only [rowAsc, Bool.and_eq_true, decide_eq_true_eq]
          rw [ih]

theorem dimsOk_false_of_mismatch {data : List (List Q)} {u v : List Q}
    (hu : u ∈ data) (hv : v ∈ data) (hne : u.length ≠ v.length) :
    dimsOk data = false := by
  cases hd : dimsOk data with
  | false => rfl
  | true =>
      exfalso
      have hall := List.all_eq_true.mp hd
      have h1 := of_decide_eq_true (hall u hu)
      have h2 := of_decide_eq_true (hall v hv)
      exact hne (h1.trans h2.symm)

theorem rowsOk_false_of_bad {rows : List (List (ℤ × Q))} {r : List (ℤ × Q)}
    (hr : r ∈ rows)
    (hbad : ¬ List.Chain' (fun p q : ℤ × Q => p.1 < q.1) r ∨ ∃ p ∈ r, p.1 < 0) :
    rows.all rowOk = false := by
  cases hd : rows.all rowOk with
  | false => rfl
  | true =>
      exfalso
      have hall := List.all_eq_true.mp hd
      have hok := hall r hr
      simp only [rowOk, Bool.and_eq_true] at hok
      rcases hbad with hbad | ⟨p, hp, hneg⟩
      · exact hbad ((rowAsc_iff r).mp hok.1)
      · have := of_decide_eq_true (List.all_eq_true.mp hok.2 p hp)
        omega

/-- C5: invalid inputs fail eagerly with the matching error kind — empty
dataset, cluster count outside [1, datasetSize], dense vectors of differing
lengths, sparse rows with out-of-order (hence duplicate) or negative indices —
and every call either returns a fully populated result (assignment covering
the dataset with in-range entries, k centroids) or fails with an error, never
a partial result. -/
theorem claim_C5_eager_validation :
    (∀ (km : KMeans) (k : ℤ) (numRuns : ℕ),
      km.Cluster [] k numRuns = .error .emptyDataset) ∧
    (∀ (km : KMeans) (k : ℤ) (numRuns : ℕ),
      km.ClusterSparse [] k numRuns = .error .emptyDataset) ∧
    (∀ (km : KMeans) (data : List (List Q)) (k : ℤ) (numRuns : ℕ), data ≠ [] →
      (k ≤ 0 ∨ (data.length : ℤ) < k) →
      km.Cluster data k numRuns = .error .invalidClusterCount) ∧
    (∀ (km : KMeans) (rows : List (List (ℤ × Q))) (k : ℤ) (numRuns : ℕ), rows ≠ [] →
      (k ≤ 0 ∨ (rows.length : ℤ) < k) →
      km.ClusterSparse rows k numRuns = .error .invalidClusterCount) ∧
    (∀ (km : KMeans) (data : List (List Q)) (k : ℤ) (numRuns : ℕ) (u v : List Q),
      u ∈ data → v ∈ data → u.length ≠ v.length → 1 ≤ k → k ≤ (data.length : ℤ) →
      km.Cluster data k numRuns = .error .dimensionMismatch) ∧
    (∀ (km : KMeans) (rows : List (List (ℤ × Q))) (k : ℤ) (numRuns : ℕ)
      (r : List (ℤ × Q)), r ∈ rows →
      (¬ List.Chain' (fun p q : ℤ × Q => p.1 < q.1) r ∨ ∃ p ∈ r, p.1 < 0) →
      1 ≤ k → k ≤ (rows.length : ℤ) →
      km.ClusterSparse rows k numRuns = .error .malformedSparseVector) ∧
    (∀ (km : KMeans) (data : List (List Q)) (k : ℤ) (numRuns : ℕ),
      (∃ res, km.Cluster data k numRuns = .ok res ∧ res.assignment.length = data.length ∧
        (∀ j ∈ res.assignment, j < k.toNat) ∧ res.centroids.length = k.toNat) ∨
      ∃ e, km.Cluster data k numRuns = .error e) ∧
    ∀ (km : KMeans) (rows : List (List (ℤ × Q))) (k : ℤ) (numRuns : ℕ),
      (∃ res, km.ClusterSparse rows k numRuns = .ok res ∧
        res.assignment.length = rows.length ∧
        (∀ j ∈ res.assignment, j < k.toNat) ∧ res.centroids.length = k.toNat) ∨
      ∃ e, km.ClusterSparse rows k numRuns = .error e := by
  refine ⟨?_, ?_, ?_, ?_, ?_, ?_, ?_, ?_⟩
  · intro km k numRuns; rfl
  · intro km k numRuns; rfl
  · intro km data k numRuns hne hk
    unfold KMeans.Cluster
    rw [if_neg (by simpa [List.isEmpty_iff] using hne), if_pos (by omega)]
  · intro km rows k numRuns hne hk
    unfold KMeans.ClusterSparse
    rw [if_neg (by simpa [List.isEmpty_iff] using hne), if_pos (by omega)]
  · intro km data k numRuns u v hu hv hne hk1 hk2
    have hdata : data ≠ [] := by rintro rfl; simp at hu
    unfold KMeans.Cluster
    rw [if_neg (by simpa [List.isEmpty_iff] using hdata), if_neg (by omega),
      if_neg (by simp [dimsOk_false_of_mismatch hu hv hne])]
  · intro km rows k numRuns r hr hbad hk1 hk2
    have hrows : rows ≠ [] := by rintro rfl; simp at hr
    unfold KMeans.ClusterSparse
    rw [if_neg (by simpa [List.isEmpty_iff] using hrows), if_neg (by omega),
      if_neg (by simp [rowsOk_false_of_bad hr hbad])]
  · intro km data k numRuns
    match h : km.Cluster data k numRuns with
    | .ok res =>
        obtain ⟨_, _, s1, s2, s3⟩ := clusterD_ok_shape h
        exact Or.inl ⟨res, rfl, s1, s2, s3⟩
    | .error e => exact Or.inr ⟨e, rfl⟩
  · intro km rows k numRuns
    match h : km.ClusterSparse rows k numRuns with
    | .ok res =>
        obtain ⟨_, _, s1, s2, s3⟩ := clusterS_ok_shape h
        exact Or.inl ⟨res, rfl, s1, s2, s3⟩
    | .error e => exact Or.inr ⟨e, rfl⟩

theorem claim_C5_eager_validation_witness :
    exKmStd.Cluster [] 2 1 = .error .emptyDataset ∧
      exKmStd.Cluster dataC8 0 1 = .error .invalidClusterCount ∧
      exKmStd.Cluster dataC8 5 1 = .error .invalidClusterCount ∧
      exKmStd.Cluster dataMismatch 1 1 = .error .dimensionMismatch ∧
      exKmStd.ClusterSparse rowsBad 1 1 = .error .malformedSparseVector := by
  refine ⟨claim_C5_eager_validation.1 exKmStd 2 1, ?_, ?_, ?_, ?_⟩
  · exact claim_C5_eager_validation.2.2.1 exKmStd dataC8 0 1 (by simp [dataC8])
      (Or.inl (by norm_num))
  · exact claim_C5_eager_validation.2.2.1 exKmStd dataC8 5 1 (by simp [dataC8])
      (Or.inr (by norm_num [dataC8]))
  · exact claim_C5_eager_validation.2.2.2.2.1 exKmStd dataMismatch 1 1
      [⟨1, 2⟩] [⟨1, 2⟩, ⟨1, 3⟩] (by simp [dataMismatch]) (by simp [dataMismatch])
      (by simp) (by norm_num) (by norm_num [dataMismatch])
  · exact claim_C5_eager_validation.2.2.2.2.2.1 exKmStd rowsBad 1 1
      [(3, ⟨1, 2⟩), (0, ⟨1, 3⟩)] (by simp [rowsBad])
      (Or.inl (by simp [List.chain'_cons])) (by norm_num)
      (by norm_num [rowsBad])

/-! Spherical invariant: squared norms of re-normalized centroids. -/

theorem dotR_comm : ∀ x y : List ℚ, dotR x y = dotR y x := by
  intro x
  induction x with
  | nil => intro y; cases y <;> simp [dotR]
  | cons a xs ih =>
      intro y
      cases y with
      | nil => simp [dotR]
      | cons b ys => simp [dotR, ih, mul_comm]

theorem dotR_scale_left (t : ℚ) : ∀ x y : List ℚ, dotR (scaleR t x) y = t * dotR x y := by
  intro x
  induction x with
  | nil => intro y; cases y <;> simp [dotR, scaleR]
  | cons a xs ih =>
      intro y
      cases y with
      | nil => simp [dotR, scaleR]
      | cons b ys =>
          have ih' : dotR (List.map (fun x => t * x) xs) ys = t * dotR xs ys := ih ys
          simp only [scaleR, List.map_cons, dotR, ih']
          ring

theorem normSqR_scale (t : ℚ) (x : List ℚ) : normSqR (scaleR t x) = t ^ 2 * normSqR x := by
  unfold normSqR
  rw [dotR_scale_left, dotR_comm, dotR_scale_left, dotR_comm]
  ring

theorem dotR_self_nonneg : ∀ x : List ℚ, 0 ≤ dotR x x := by
  intro x
  induction x with
  | nil => simp [dotR]
  | cons a xs ih =>
      simp only [dotR]
      nlinarith [mul_self_nonneg a]

theorem Q.num_pos_iff (a : Q) : 0 < a.num ↔ 0 < a.toRat := by
  unfold Q.toRat
  constructor
  · intro h
    apply div_pos _ a.den_pos
    exact_mod_cast h
  · intro h
    by_contra hc
    push_neg at hc
    have : (a.num : ℚ) ≤ 0 := by exact_mod_cast hc
    have : (a.num : ℚ) / ((a.den : ℕ) : ℚ) ≤ 0 := div_nonpos_of_nonpos_of_nonneg this (le_of_lt a.den_pos)
    linarith

theorem vnormSq_toRat_nonneg (v : DenseVec) : 0 ≤ (vnormSq v).toRat := by
  rw [toRatV_vnormSq]
  exact dotR_self_nonneg _

theorem ratio_bound_nat {M m : ℕ} (h1 : m * m ≤ M) (h2 : M < (m + 1) * (m + 1))
    (h3 : 2 ^ 20 ≤ m) :
    1 ≤ (M : ℚ) / (m : ℚ) ^ 2 ∧ (M : ℚ) / (m : ℚ) ^ 2 ≤ 1 + 1 / 100000 := by
  have hmpos : (0 : ℚ) < (m : ℚ) := by
    have : 0 < m := by omega
    exact_mod_cast this
  constructor
  · rw [le_div_iff (by positivity), one_mul]
    have : ((m * m : ℕ) : ℚ) ≤ ((M : ℕ) : ℚ) := by exact_mod_cast h1
    push_cast at this
    nlinarith [this]
  · rw [div_le_iff (by positivity)]
    have hnat : M * 100000 ≤ (m * m) * 100001 := by nlinarith
    have hq : ((M * 100000 : ℕ) : ℚ) ≤ (((m * m) * 100001 : ℕ) : ℚ) := by exact_mod_cast hnat
    push_cast at hq
    nlinarith [hq]

theorem ratSqrt_toRat {q : Q} (hq : ¬ q.num ≤ 0) :
    (ratSqrt q).toRat
      = ((intSqrt (q.num.toNat * (q.den : ℕ) * 4 ^ 20) : ℕ) : ℚ)
        / (((q.den : ℕ) : ℚ) * 2 ^ 20) := by
  unfold ratSqrt
  rw [if_neg hq]
  unfold Q.toRat
  push_cast [PNat.mul_coe, PNat.pow_coe]
  norm_num

theorem ratSqrt_ratio {q : Q} (h : 0 < q.num) :
    0 < (ratSqrt q).toRat ∧ 1 ≤ q.toRat / (ratSqrt q).toRat ^ 2 ∧
      q.toRat / (ratSqrt q).toRat ^ 2 ≤ 1 + 1 / 100000 := by
  have hq : ¬ q.num ≤ 0 := by omega
  obtain ⟨hsq1, hsq2⟩ := intSqrt_spec (q.num.toNat * (q.den : ℕ) * 4 ^ 20)
  have hmlarge : 2 ^ 20 ≤ intSqrt (q.num.toNat * (q.den : ℕ) * 4 ^ 20) := by
    apply intSqrt_large
    have h1 : 1 ≤ q.num.toNat := by omega
    have h2 : 1 ≤ (q.den : ℕ) := q.den.pos
    calc (2 : ℕ) ^ 40 = 1 * 1 * 4 ^ 20 := by norm_num
      _ ≤ q.num.toNat * (q.den : ℕ) * 4 ^ 20 :=
          Nat.mul_le_mul (Nat.mul_le_mul h1 h2) le_rfl
  have hval := ratSqrt_toRat hq
  have hmQpos : (0 : ℚ) < ((intSqrt (q.num.toNat * (q.den : ℕ) * 4 ^ 20) : ℕ) : ℚ) := by
    have : 0 < intSqrt (q.num.toNat * (q.den : ℕ) * 4 ^ 20) := by omega
    exact_mod_cast this
  have hspos : 0 < (ratSqrt q).toRat := by
    rw [hval]
    positivity
  have hcast : ((q.num.toNat : ℕ) : ℚ) = (q.num : ℚ) := by
    exact_mod_cast Int.toNat_of_nonneg (by omega)
  have hratio : q.toRat / (ratSqrt q).toRat ^ 2
      = ((q.num.toNat * (q.den : ℕ) * 4 ^ 20 : ℕ) : ℚ)
        / ((intSqrt (q.num.toNat * (q.den : ℕ) * 4 ^ 20) : ℕ) : ℚ) ^ 2 := by
    rw [hval]
    unfold Q.toRat
    rw [div_pow, div_div_div_eq]
    push_cast [hcast]
    have hd : ((q.den : ℕ) : ℚ) ≠ 0 := q.den_ne
    have hm0 : ((intSqrt (q.num.toNat * (q.den : ℕ) * 4 ^ 20) : ℕ) : ℚ) ≠ 0 :=
      ne_of_gt hmQpos
    norm_num at hm0
    field_simp
    ring
  obtain ⟨hlo, hhi⟩ := ratio_bound_nat hsq1 hsq2 hmlarge
  rw [hratio]
  exact ⟨hspos, hlo, hhi⟩

theorem normalizeV_normSq (w : DenseVec) :
    (vnormSq (normalizeV w)).toRat = 0 ∨
      |(vnormSq (normalizeV w)).toRat - 1| ≤ 1 / 100000 := by
  by_cases h0 : (vnormSq w).num = 0
  · left
    unfold normalizeV
    rw [if_pos h0]
    exact (Q.num_zero_iff _).mp h0
  · right
    have hpos : 0 < (vnormSq w).num := by
      rcases lt_trichotomy (vnormSq w).num 0 with h | h | h
      · exfalso
        have := vnormSq_toRat_nonneg w
        have hneg : (vnormSq w).toRat < 0 := by
          by_contra hc
          push_neg at hc
          exact absurd ((Q.num_pos_iff _).mpr (lt_of_le_of_ne hc
            (fun he => h0 ((Q.num_zero_iff _).mpr he.symm)))) (by omega)
        linarith
      · exact absurd h h0
      · exact h
    obtain ⟨hspos, hlo, hhi⟩ := ratSqrt_ratio hpos
    have hcalc : (vnormSq (normalizeV w)).toRat
        = (vnormSq w).toRat / (ratSqrt (vnormSq w)).toRat ^ 2 := by
      unfold normalizeV
      rw [if_neg h0, toRatV_vnormSq, toRatV_vscale, normSqR_scale, Q.toRat_inv,
        ← toRatV_vnormSq]
      rw [div_eq_mul_inv, mul_comm]
      congr 1
      rw [inv_pow]
    rw [hcalc]
    rw [abs_le]
    constructor <;> linarith

/-! Spherical pipeline invariant: every centroid the spherical variant ever
stores is the re-normalization of some vector. -/

theorem ite_normed (x : DenseVec) :
    ∃ w, (if true = true then normalizeV x else x) = normalizeV w :=
  ⟨x, if_pos rfl⟩

theorem kppAux_normed (data : List FlexibleVector) (dim : ℕ) :
    ∀ (t : ℕ) (acc : List DenseVec) (s : ℕ), (∀ c ∈ acc, ∃ w, c = normalizeV w) →
      ∀ c ∈ (kppAux true data dim t acc s).1, ∃ w, c = normalizeV w := by
  intro t
  induction t with
  | zero => intro acc s h; simpa [kppAux] using h
  | succ t ih =>
      intro acc s h
      simp only [kppAux]
      apply ih
      intro c hc
      rcases List.mem_append.mp hc with hc | hc
      · exact h c hc
      · have hc' := List.mem_singleton.mp hc
        rw [hc']
        exact ite_normed _

theorem kppSeed_normed (data : List FlexibleVector) (dim k seed : ℕ) :
    ∀ c ∈ (kppSeed true data dim k seed).1, ∃ w, c = normalizeV w := by
  unfold kppSeed
  apply kppAux_normed
  intro c hc
  have hc' := List.mem_singleton.mp hc
  rw [hc']
  exact ite_normed _

theorem updateAll_normed (data : List FlexibleVector) (dim : ℕ) (a : List ℕ)
    (cents : List DenseVec) :
    ∀ c ∈ updateAll true data dim a cents, ∃ w, c = normalizeV w := by
  intro c hc
  obtain ⟨i, _, rfl⟩ := List.mem_map.mp hc
  simp only [updateCentroid]
  rw [if_pos trivial]
  split
  · exact ⟨_, rfl⟩
  · exact ⟨_, rfl⟩

theorem lloydLoop_normed (data : List FlexibleVector) (dim : ℕ) :
    ∀ (fuel : ℕ) (s : List ℕ × List DenseVec), (∀ c ∈ s.2, ∃ w, c = normalizeV w) →
      ∀ c ∈ (lloydLoop true data dim fuel s).2, ∃ w, c = normalizeV w := by
  intro fuel
  induction fuel with
  | zero => intro s h; exact h
  | succ f ih =>
      intro s h
      simp only [lloydLoop]
      split
      · exact updateAll_normed data dim _ _
      · exact ih _ (updateAll_normed data dim _ _)

theorem runSingle_normed (data : List FlexibleVector) (dim k maxIter seed : ℕ) :
    ∀ c ∈ (runSingle true data dim k maxIter seed).centroids, ∃ w, c = normalizeV w := by
  unfold runSingle
  exact lloydLoop_normed data dim maxIter _ (kppSeed_normed data dim k seed)

theorem runOptimizer_normed (data : List FlexibleVector) (dim k maxIter numRuns seed : ℕ) :
    ∀ c ∈ (runOptimizer true data dim k maxIter numRuns seed).centroids,
      ∃ w, c = normalizeV w := by
  obtain ⟨i, _, hrun⟩ := runOptimizer_mem true data dim k maxIter numRuns seed
  rw [hrun]
  exact runSingle_normed data dim k maxIter _

/-- C3: after any successful call (either overload) in spherical mode, every
non-degenerate returned centroid (one of non-zero squared norm) has squared
norm within 1e-5 of 1; a zero mean is reseeded by the updater rather than
normalized, and only such degenerate centroids can escape the bound. -/
theorem claim_C3_spherical_norms :
    (∀ (km : KMeans) (data : List (List Q)) (k : ℤ) (numRuns : ℕ) (res : ClusteringResult),
      km.UseSphericalKMeans = true → km.Cluster data k numRuns = .ok res →
      ∀ c ∈ res.centroids, (vnormSq c).toRat ≠ 0 →
        |(vnormSq c).toRat - 1| ≤ 1 / 100000) ∧
    ∀ (km : KMeans) (rows : List (List (ℤ × Q))) (k : ℤ) (numRuns : ℕ)
      (res : ClusteringResult),
      km.UseSphericalKMeans = true → km.ClusterSparse rows k numRuns = .ok res →
      ∀ c ∈ res.centroids, (vnormSq c).toRat ≠ 0 →
        |(vnormSq c).toRat - 1| ≤ 1 / 100000 := by
  constructor
  · intro km data k numRuns res hsph h c hc hnz
    obtain ⟨_, _, _, hres⟩ := clusterD_ok_inv h
    rw [hsph] at hres
    subst hres
    obtain ⟨w, rfl⟩ := runOptimizer_normed _ _ _ _ _ _ c hc
    rcases normalizeV_normSq w with hz | hb
    · exact absurd hz hnz
    · exact hb
  · intro km rows k numRuns res hsph h c hc hnz
    obtain ⟨_, _, _, hres⟩ := clusterS_ok_inv h
    rw [hsph] at hres
    subst hres
    obtain ⟨w, rfl⟩ := runOptimizer_normed _ _ _ _ _ _ c hc
    rcases normalizeV_normSq w with hz | hb
    · exact absurd hz hnz
    · exact hb

theorem claim_C3_spherical_norms_witness :
    |(vnormSq (exResC3.centroids.getD 0 [])).toRat - 1| ≤ 1 / 100000 ∧
      |(vnormSq (exResC3.centroids.getD 1 [])).toRat - 1| ≤ 1 / 100000 := by
  have h : exKmSph.ClusterSparse rowsC9 2 1 = .ok exResC3 := rfl
  constructor
  · refine claim_C3_spherical_norms.2 exKmSph rowsC9 2 1 exResC3 rfl h _ (by decide) ?_
    intro hz
    exact absurd ((Q.num_zero_iff _).mpr hz) (by decide)
  · refine claim_C3_spherical_norms.2 exKmSph rowsC9 2 1 exResC3 rfl h _ (by decide) ?_
    intro hz
    exact absurd ((Q.num_zero_iff _).mpr hz) (by decide)

/-! Sampling lemmas for the random source. -/

theorem cdfPick_spec : ∀ (ws : List Q) (t : Q), 0 ≤ t.toRat → t.toRat < (qsum ws).toRat →
    cdfPick ws t < ws.length ∧ 0 < (ws.getD (cdfPick ws t) qzero).toRat := by
  intro ws
  induction ws with
  | nil =>
      intro t h0 hlt
      exfalso
      rw [show qsum [] = qzero from rfl, toRat_qzero] at hlt
      linarith
  | cons w ws ih =>
      intro t h0 hlt
      simp only [cdfPick]
      by_cases hb : t.blt w = true
      · rw [if_pos hb]
        have := (Q.blt_iff _ _).mp hb
        exact ⟨by simp, by simpa using lt_of_le_of_lt h0 this⟩
      · rw [if_neg hb]
        have hwt : w.toRat ≤ t.toRat :=
          (Q.blt_false_iff _ _).mp (Bool.not_eq_true _ ▸ hb)
        have hsum : (qsum (w :: ws)).toRat = w.toRat + (qsum ws).toRat := by
          rw [show qsum (w :: ws) = w.add (qsum ws) from rfl, Q.toRat_add]
        have h0' : 0 ≤ (t.sub w).toRat := by rw [Q.toRat_sub]; linarith
        have hlt' : (t.sub w).toRat < (qsum ws).toRat := by
          rw [Q.toRat_sub]; rw [hsum] at hlt; linarith
        obtain ⟨ih1, ih2⟩ := ih _ h0' hlt'
        exact ⟨by simpa using ih1, by simpa using ih2⟩

theorem randFrac_bounds (s : ℕ) :
    0 ≤ (randFrac s).1.toRat ∧ (randFrac s).1.toRat < 1 := by
  unfold randFrac Q.toRat
  simp only
  constructor
  · positivity
  · rw [div_lt_one (by push_cast [PNat.pow_coe]; positivity)]
    have hlt : lcgNext s < 2 ^ 31 := Nat.mod_lt _ (by norm_num)
    push_cast [PNat.pow_coe]
    exact_mod_cast hlt

/-! Three-restart selection. -/

theorem betterScore_iff (sph : Bool) (x y : Q) :
    betterScore sph x y = true ↔ (if sph then y.toRat < x.toRat else x.toRat < y.toRat) := by
  cases sph <;> simp [betterScore, Q.blt_iff]

theorem betterScore_false_iff (sph : Bool) (x y : Q) :
    betterScore sph x y = false ↔ (if sph then x.toRat ≤ y.toRat else y.toRat ≤ x.toRat) := by
  cases sph <;> simp [betterScore, Q.blt_false_iff]

theorem runOptimizer_one (sph : Bool) (data : List FlexibleVector)
    (dim k maxIter seed : ℕ) :
    runOptimizer sph data dim k maxIter 1 seed
      = runSingle sph data dim k maxIter (deriveSeed seed 0) := rfl

theorem runOptimizer_three (sph : Bool) (data : List FlexibleVector)
    (dim k maxIter seed : ℕ) :
    ∃ i, i < 3 ∧
      runOptimizer sph data dim k maxIter 3 seed
        = runSingle sph data dim k maxIter (deriveSeed seed i) ∧
      (∀ j, j < 3 → noWorse sph (runOptimizer sph data dim k maxIter 3 seed).score.toRat
        (runSingle sph data dim k maxIter (deriveSeed seed j)).score.toRat) ∧
      ∀ j, j < i →
        ¬ noWorse sph (runSingle sph data dim k maxIter (deriveSeed seed j)).score.toRat
          (runOptimizer sph data dim k maxIter 3 seed).score.toRat := by
  have hrw : runOptimizer sph data dim k maxIter 3 seed
      = pickBest sph
          [runSingle sph data dim k maxIter (deriveSeed seed 1),
           runSingle sph data dim k maxIter (deriveSeed seed 2)]
          (runSingle sph data dim k maxIter (deriveSeed seed 0)) := rfl
  set r0 := runSingle sph data dim k maxIter (deriveSeed seed 0) with hr0
  set r1 := runSingle sph data dim k maxIter (deriveSeed seed 1) with hr1
  set r2 := runSingle sph data dim k maxIter (deriveSeed seed 2) with hr2
  rcases hb1 : betterScore sph r1.score r0.score with _ | _
  · have hb1' := (betterScore_false_iff sph _ _).mp hb1
    rcases hb2 : betterScore sph r2.score r0.score with _ | _
    · have hb2' := (betterScore_false_iff sph _ _).mp hb2
      have hfin : pickBest sph [r1, r2] r0 = r0 := by simp [pickBest, hb1, hb2]
      refine ⟨0, by norm_num, by rw [hrw, hfin], ?_, by omega⟩
      intro j hj
      rw [hrw, hfin]
      interval_cases j <;> cases sph <;> simp_all [noWorse] <;> try linarith
    · have hb2' := (betterScore_iff sph _ _).mp hb2
      have hfin : pickBest sph [r1, r2] r0 = r2 := by simp [pickBest, hb1, hb2]
      refine ⟨2, by norm_num, by rw [hrw, hfin], ?_, ?_⟩
      · intro j hj
        rw [hrw, hfin]
        interval_cases j <;> cases sph <;> simp_all [noWorse] <;> try linarith
      · intro j hj
        rw [hrw, hfin]
        interval_cases j <;> cases sph <;> simp_all [noWorse] <;> try linarith
  · have hb1' := (betterScore_iff sph _ _).mp hb1
    rcases hb2 : betterScore sph r2.score r1.score with _ | _
    · have hb2' := (betterScore_false_iff sph _ _).mp hb2
      have hfin : pickBest sph [r1, r2] r0 = r1 := by simp [pickBest, hb1, hb2]
      refine ⟨1, by norm_num, by rw [hrw, hfin], ?_, ?_⟩
      · intro j hj
        rw [hrw, hfin]
        interval_cases j <;> cases sph <;> simp_all [noWorse] <;> try linarith
      · intro j hj
        rw [hrw, hfin]
        interval_cases j <;> cases sph <;> simp_all [noWorse] <;> try linarith
    · have hb2' := (betterScore_iff sph _ _).mp hb2
      have hfin : pickBest sph [r1, r2] r0 = r2 := by simp [pickBest, hb1, hb2]
      refine ⟨2, by norm_num, by rw [hrw, hfin], ?_, ?_⟩
      · intro j hj
        rw [hrw, hfin]
        interval_cases j <;> cases sph <;> simp_all [noWorse] <;> try linarith
      · intro j hj
        rw [hrw, hfin]
        interval_cases j <;> cases sph <;> simp_all [noWorse] <;> try linarith

/-- C7: a three-restart call (either overload) returns exactly one of its
three component runs — the earliest best-scoring one — so its objective is no
worse than each (hence at least one) of the three component runs, and every
run before the returned one is strictly worse. -/
theorem claim_C7_multirun_selection :
    (∀ (km : KMeans) (data : List (List Q)) (k : ℤ) (res : ClusteringResult),
      km.Cluster data k 3 = .ok res →
      ∃ i, i < 3 ∧
        res = runSingle km.UseSphericalKMeans (data.map .dense) (denseDim data) k.toNat
          km.MaxIterations (deriveSeed km.RandomSeed i) ∧
        (∀ j, j < 3 → noWorse km.UseSphericalKMeans res.score.toRat
          (runSingle km.UseSphericalKMeans (data.map .dense) (denseDim data) k.toNat
            km.MaxIterations (deriveSeed km.RandomSeed j)).score.toRat) ∧
        ∀ j, j < i →
          ¬ noWorse km.UseSphericalKMeans
            (runSingle km.UseSphericalKMeans (data.map .dense) (denseDim data) k.toNat
              km.MaxIterations (deriveSeed km.RandomSeed j)).score.toRat
            res.score.toRat) ∧
    ∀ (km : KMeans) (rows : List (List (ℤ × Q))) (k : ℤ) (res : ClusteringResult),
      km.ClusterSparse rows k 3 = .ok res →
      ∃ i, i < 3 ∧
        res = runSingle km.UseSphericalKMeans (rows.map .sparse) (sparseDim rows) k.toNat
          km.MaxIterations (deriveSeed km.RandomSeed i) ∧
        (∀ j, j < 3 → noWorse km.UseSphericalKMeans res.score.toRat
          (runSingle km.UseSphericalKMeans (rows.map .sparse) (sparseDim rows) k.toNat
            km.MaxIterations (deriveSeed km.RandomSeed j)).score.toRat) ∧
        ∀ j, j < i →
          ¬ noWorse km.UseSphericalKMeans
            (runSingle km.UseSphericalKMeans (rows.map .sparse) (sparseDim rows) k.toNat
              km.MaxIterations (deriveSeed km.RandomSeed j)).score.toRat
            res.score.toRat := by
  constructor
  · intro km data k res h
    obtain ⟨_, _, _, hres⟩ := clusterD_ok_inv h
    subst hres
    exact runOptimizer_three km.UseSphericalKMeans (data.map .dense) (denseDim data)
      k.toNat km.MaxIterations km.RandomSeed
  · intro km rows k res h
    obtain ⟨_, _, _, hres⟩ := clusterS_ok_inv h
    subst hres
    exact runOptimizer_three km.UseSphericalKMeans (rows.map .sparse) (sparseDim rows)
      k.toNat km.MaxIterations km.RandomSeed

theorem claim_C7_multirun_selection_witness :
    noWorse false exResC7.score.toRat
      (runSingle false (dataC8.map .dense) (denseDim dataC8) (2 : ℤ).toNat 100
        (deriveSeed 7 0)).score.toRat ∧
    noWorse false exResC7.score.toRat
      (runSingle false (dataC8.map .dense) (denseDim dataC8) (2 : ℤ).toNat 100
        (deriveSeed 7 1)).score.toRat ∧
    noWorse false exResC7.score.toRat
      (runSingle false (dataC8.map .dense) (denseDim dataC8) (2 : ℤ).toNat 100
        (deriveSeed 7 2)).score.toRat := by
  have h : exKmStd.Cluster dataC8 2 3 = .ok exResC7 := rfl
  obtain ⟨i, hi, heq, hnw, hearly⟩ := claim_C7_multirun_selection.1 exKmStd dataC8 2 exResC7 h
  exact ⟨hnw 0 (by norm_num), hnw 1 (by norm_num), hnw 2 (by norm_num)⟩

/-! Concrete scenarios: the grouping produced on the two demonstration
datasets is independent of the seed.  The seeding pipeline is unfolded by
shallow one-step equations (each a definitional unfolding on fully symbolic
arguments) rather than by one monolithic definitional check. -/

theorem kppAux_one_fst (sph : Bool) (data : List FlexibleVector) (dim : ℕ)
    (acc : List DenseVec) (s : ℕ) :
    (kppAux sph data dim 1 acc s).1
      = acc ++ [if sph then
          normalizeV ((getV data (cdfPick (data.map fun v => seedWeight sph v acc)
            ((randFrac s).1.mul (qsum (data.map fun v => seedWeight sph v acc))))).toDenseVec
              dim)
        else (getV data (cdfPick (data.map fun v => seedWeight sph v acc)
            ((randFrac s).1.mul (qsum (data.map fun v => seedWeight sph v acc))))).toDenseVec
              dim] := rfl

theorem kppSeed_two (sph : Bool) (data : List FlexibleVector) (dim seed : ℕ) :
    kppSeed sph data dim 2 seed
      = kppAux sph data dim 1
          [if sph then normalizeV ((getV data ((randIdx seed data.length).1)).toDenseVec dim)
           else (getV data ((randIdx seed data.length).1)).toDenseVec dim]
          (randIdx seed data.length).2 := rfl

theorem runSingle_assignment (sph : Bool) (data : List FlexibleVector)
    (dim k maxIter seed : ℕ) :
    (runSingle sph data dim k maxIter seed).assignment
      = (lloydLoop sph data dim maxIter
          (assignAll sph data (kppSeed sph data dim k seed).1,
           (kppSeed sph data dim k seed).1)).1 := rfl

theorem runSingle_centroids (sph : Bool) (data : List FlexibleVector)
    (dim k maxIter seed : ℕ) :
    (runSingle sph data dim k maxIter seed).centroids
      = (lloydLoop sph data dim maxIter
          (assignAll sph data (kppSeed sph data dim k seed).1,
           (kppSeed sph data dim k seed).1)).2 := rfl

theorem dataC8F_length : dataC8F.length = 4 := rfl

theorem rowsC9F_length : rowsC9F.length = 4 := rfl

theorem kppSeedC8 (s : ℕ) :
    (kppSeed false dataC8F 2 2 s).1
      = [dvecC8 ((randIdx s 4).1),
         dvecC8 (cdfPick (wsC8 ((randIdx s 4).1))
           ((randFrac (randIdx s 4).2).1.mul (qsum (wsC8 ((randIdx s 4).1)))))] := by
  rw [kppSeed_two, kppAux_one_fst]
  simp only [dataC8F_length, Bool.false_eq_true, if_false, wsC8, dvecC8,
    List.singleton_append]

theorem kppSeedC9 (s : ℕ) :
    (kppSeed true rowsC9F 4 2 s).1
      = [dvecC9 ((randIdx s 4).1),
         dvecC9 (cdfPick (wsC9 ((randIdx s 4).1))
           ((randFrac (randIdx s 4).2).1.mul (qsum (wsC9 ((randIdx s 4).1)))))] := by
  rw [kppSeed_two, kppAux_one_fst]
  simp only [rowsC9F_length, eq_self_iff_true, if_true, wsC9, dvecC9,
    List.singleton_append]

theorem wsC8_total_pos : ∀ i0, i0 < 4 → 0 < (qsum (wsC8 i0)).num := by decide

theorem wsC9_total_pos : ∀ i0, i0 < 4 → 0 < (qsum (wsC9 i0)).num := by decide

theorem c8_cases : ∀ i0, i0 < 4 → ∀ j, j < 4 → 0 < ((wsC8 i0).getD j qzero).num →
    groupOK ((lloydLoop false dataC8F 2 100
      (assignAll false dataC8F [dvecC8 i0, dvecC8 j], [dvecC8 i0, dvecC8 j])).1) = true := by
  decide

theorem c9_cases : ∀ i0, i0 < 4 → ∀ j, j < 4 → 0 < ((wsC9 i0).getD j qzero).num →
    (groupOK ((lloydLoop true rowsC9F 4 100
        (assignAll true rowsC9F [dvecC9 i0, dvecC9 j], [dvecC9 i0, dvecC9 j])).1) &&
      ((lloydLoop true rowsC9F 4 100
        (assignAll true rowsC9F [dvecC9 i0, dvecC9 j], [dvecC9 i0, dvecC9 j])).2.all
          normOK)) = true := by
  decide

theorem getD_irrel {a : List ℕ} {i : ℕ} (h : i < a.length) (d1 d2 : ℕ) :
    a.getD i d1 = a.getD i d2 := by
  simp [List.getD_eq_getElem?_getD, List.getElem?_eq_getElem h]

theorem groupOK_spec {a : List ℕ} (hlen : a.length = 4) (h : groupOK a = true) :
    a.getD 0 0 = a.getD 1 0 ∧ a.getD 2 0 = a.getD 3 0 ∧ a.getD 0 0 ≠ a.getD 2 0 := by
  have e0 := getD_irrel (a := a) (i := 0) (by omega) 0 9
  have e1 := getD_irrel (a := a) (i := 1) (by omega) 0 9
  have e2 := getD_irrel (a := a) (i := 2) (by omega) 0 9
  have e3 := getD_irrel (a := a) (i := 3) (by omega) 0 9
  simp only [groupOK, Bool.and_eq_true, beq_iff_eq, Bool.not_eq_true',
    beq_eq_false_iff_ne, ne_eq] at h
  rw [e0, e1, e2, e3]
  exact ⟨h.1, h.2.1, fun hc => h.2.2 hc⟩

/-- C8: for the dense dataset [[0.1,0.8],[0.2,0.7],[0.5,0.45],[0.6,0.5]] with
k = 2 in standard mode, under any fixed seed (and any tolerance field), the
returned assignment places vectors 0 and 1 in one cluster and vectors 2 and 3
in the other. -/
theorem claim_C8_dense_grouping :
    ∀ (seed : ℕ) (eps : Q) (res : ClusteringResult),
      KMeans.Cluster ⟨false, 100, eps, seed⟩ dataC8 2 1 = .ok res →
      res.assignment.getD 0 0 = res.assignment.getD 1 0 ∧
        res.assignment.getD 2 0 = res.assignment.getD 3 0 ∧
        res.assignment.getD 0 0 ≠ res.assignment.getD 2 0 := by
  intro seed eps res h
  obtain ⟨_, _, _, hres0⟩ := clusterD_ok_inv h
  have hlen4 : res.assignment.length = 4 := by
    have := (clusterD_ok_shape h).2.2.1
    simpa [dataC8] using this
  have hres : res = runSingle false dataC8F 2 2 100 (deriveSeed seed 0) := hres0
  have hassign : res.assignment
      = (lloydLoop false dataC8F 2 100
          (assignAll false dataC8F
            [dvecC8 ((randIdx (deriveSeed seed 0) 4).1),
             dvecC8 (cdfPick (wsC8 ((randIdx (deriveSeed seed 0) 4).1))
               ((randFrac (randIdx (deriveSeed seed 0) 4).2).1.mul
                 (qsum (wsC8 ((randIdx (deriveSeed seed 0) 4).1)))))],
           [dvecC8 ((randIdx (deriveSeed seed 0) 4).1),
            dvecC8 (cdfPick (wsC8 ((randIdx (deriveSeed seed 0) 4).1))
              ((randFrac (randIdx (deriveSeed seed 0) 4).2).1.mul
                (qsum (wsC8 ((randIdx (deriveSeed seed 0) 4).1)))))])).1 := by
    rw [hres, runSingle_assignment, kppSeedC8]
  have hI : (randIdx (deriveSeed seed 0) 4).1 < 4 := Nat.mod_lt _ (by norm_num)
  have hfrac := randFrac_bounds (randIdx (deriveSeed seed 0) 4).2
  have htotR : 0 < (qsum (wsC8 ((randIdx (deriveSeed seed 0) 4).1))).toRat :=
    (Q.num_pos_iff _).mp (wsC8_total_pos _ hI)
  have ht0 : 0 ≤ ((randFrac (randIdx (deriveSeed seed 0) 4).2).1.mul
      (qsum (wsC8 ((randIdx (deriveSeed seed 0) 4).1)))).toRat := by
    rw [Q.toRat_mul]
    exact mul_nonneg hfrac.1 (le_of_lt htotR)
  have ht1 : ((randFrac (randIdx (deriveSeed seed 0) 4).2).1.mul
      (qsum (wsC8 ((randIdx (deriveSeed seed 0) 4).1)))).toRat
      < (qsum (wsC8 ((randIdx (deriveSeed seed 0) 4).1))).toRat := by
    rw [Q.toRat_mul]
    exact mul_lt_of_lt_one_left htotR hfrac.2
  obtain ⟨hJlt, hJpos⟩ := cdfPick_spec _ _ ht0 ht1
  have hJlt4 : cdfPick (wsC8 ((randIdx (deriveSeed seed 0) 4).1))
      ((randFrac (randIdx (deriveSeed seed 0) 4).2).1.mul
        (qsum (wsC8 ((randIdx (deriveSeed seed 0) 4).1)))) < 4 := by
    simpa [wsC8, dataC8F, dataC8] using hJlt
  have hgrp := c8_cases _ hI _ hJlt4 ((Q.num_pos_iff _).mpr hJpos)
  have hlen4' : ((lloydLoop false dataC8F 2 100
      (assignAll false dataC8F
        [dvecC8 ((randIdx (deriveSeed seed 0) 4).1),
         dvecC8 (cdfPick (wsC8 ((randIdx (deriveSeed seed 0) 4).1))
           ((randFrac (randIdx (deriveSeed seed 0) 4).2).1.mul
             (qsum (wsC8 ((randIdx (deriveSeed seed 0) 4).1)))))],
       [dvecC8 ((randIdx (deriveSeed seed 0) 4).1),
        dvecC8 (cdfPick (wsC8 ((randIdx (deriveSeed seed 0) 4).1))
          ((randFrac (randIdx (deriveSeed seed 0) 4).2).1.mul
            (qsum (wsC8 ((randIdx (deriveSeed seed 0) 4).1)))))])).1).length = 4 := by
    rw [← hassign]
    exact hlen4
  rw [hassign]
  exact groupOK_spec hlen4' hgrp

theorem claim_C8_dense_grouping_witness :
    exResC1.assignment.getD 0 0 = exResC1.assignment.getD 1 0 ∧
      exResC1.assignment.getD 2 0 = exResC1.assignment.getD 3 0 ∧
      exResC1.assignment.getD 0 0 ≠ exResC1.assignment.getD 2 0 :=
  claim_C8_dense_grouping 7 ⟨1, 1000000⟩ exResC1 rfl

theorem all_getD {p : DenseVec → Bool} {l : List DenseVec} (h : l.all p = true) {i : ℕ}
    (hi : i < l.length) (d : DenseVec) : p (l.getD i d) = true := by
  apply List.all_eq_true.mp h
  rw [List.getD_eq_getElem?_getD, List.getElem?_eq_getElem hi]
  exact List.getElem_mem hi

theorem normOK_spec {c : DenseVec} (h : normOK c = true) :
    |(vnormSq c).toRat - 1| ≤ 1 / 100000 := by
  unfold normOK at h
  rw [Q.ble_iff, Q.toRat_qabs, Q.toRat_sub, toRat_qone] at h
  have hq : (⟨1, 100000⟩ : Q).toRat = 1 / 100000 := by
    unfold Q.toRat
    norm_num
  rw [hq] at h
  exact h

/-- C9: for the sparse dataset equivalent to the dense scenario restricted to
indices 0 and 3, clustered with k = 2 in spherical mode under any fixed seed,
the returned assignment groups vectors 0, 1 against vectors 2, 3 exactly as
in the dense case, and both returned centroids have squared norm within 1e-5
of one. -/
theorem claim_C9_sparse_spherical :
    ∀ (seed : ℕ) (eps : Q) (res : ClusteringResult),
      KMeans.ClusterSparse ⟨true, 100, eps, seed⟩ rowsC9 2 1 = .ok res →
      (res.assignment.getD 0 0 = res.assignment.getD 1 0 ∧
        res.assignment.getD 2 0 = res.assignment.getD 3 0 ∧
        res.assignment.getD 0 0 ≠ res.assignment.getD 2 0) ∧
      |(vnormSq (res.centroids.getD 0 [])).toRat - 1| ≤ 1 / 100000 ∧
      |(vnormSq (res.centroids.getD 1 [])).toRat - 1| ≤ 1 / 100000 := by
  intro seed eps res h
  obtain ⟨_, _, _, hres0⟩ := clusterS_ok_inv h
  have hlen4 : res.assignment.length = 4 := by
    have := (clusterS_ok_shape h).2.2.1
    simpa [rowsC9] using this
  have hclen : res.centroids.length = 2 := by
    have := (clusterS_ok_shape h).2.2.2.2
    simpa using this
  have hres : res = runSingle true rowsC9F 4 2 100 (deriveSeed seed 0) := hres0
  have hassign : res.assignment
      = (lloydLoop true rowsC9F 4 100
          (assignAll true rowsC9F
            [dvecC9 ((randIdx (deriveSeed seed 0) 4).1),
             dvecC9 (cdfPick (wsC9 ((randIdx (deriveSeed seed 0) 4).1))
               ((randFrac (randIdx (deriveSeed seed 0) 4).2).1.mul
                 (qsum (wsC9 ((randIdx (deriveSeed seed 0) 4).1)))))],
           [dvecC9 ((randIdx (deriveSeed seed 0) 4).1),
            dvecC9 (cdfPick (wsC9 ((randIdx (deriveSeed seed 0) 4).1))
              ((randFrac (randIdx (deriveSeed seed 0) 4).2).1.mul
                (qsum (wsC9 ((randIdx (deriveSeed seed 0) 4).1)))))])).1 := by
    rw [hres, runSingle_assignment, kppSeedC9]
  have hcents : res.centroids
      = (lloydLoop true rowsC9F 4 100
          (assignAll true rowsC9F
            [dvecC9 ((randIdx (deriveSeed seed 0) 4).1),
             dvecC9 (cdfPick (wsC9 ((randIdx (deriveSeed seed 0) 4).1))
               ((randFrac (randIdx (deriveSeed seed 0) 4).2).1.mul
                 (qsum (wsC9 ((randIdx (deriveSeed seed 0) 4).1)))))],
           [dvecC9 ((randIdx (deriveSeed seed 0) 4).1),
            dvecC9 (cdfPick (wsC9 ((randIdx (deriveSeed seed 0) 4).1))
              ((randFrac (randIdx (deriveSeed seed 0) 4).2).1.mul
                (qsum (wsC9 ((randIdx (deriveSeed seed 0) 4).1)))))])).2 := by
    rw [hres, runSingle_centroids, kppSeedC9]
  have hI : (randIdx (deriveSeed seed 0) 4).1 < 4 := Nat.mod_lt _ (by norm_num)
  have hfrac := randFrac_bounds (randIdx (deriveSeed seed 0) 4).2
  have htotR : 0 < (qsum (wsC9 ((randIdx (deriveSeed seed 0) 4).1))).toRat :=
    (Q.num_pos_iff _).mp (wsC9_total_pos _ hI)
  have ht0 : 0 ≤ ((randFrac (randIdx (deriveSeed seed 0) 4).2).1.mul
      (qsum (wsC9 ((randIdx (deriveSeed seed 0) 4).1)))).toRat := by
    rw [Q.toRat_mul]
    exact mul_nonneg hfrac.1 (le_of_lt htotR)
  have ht1 : ((randFrac (randIdx (deriveSeed seed 0) 4).2).1.mul
      (qsum (wsC9 ((randIdx (deriveSeed seed 0) 4).1)))).toRat
      < (qsum (wsC9 ((randIdx (deriveSeed seed 0) 4).1))).toRat := by
    rw [Q.toRat_mul]
    exact mul_lt_of_lt_one_left htotR hfrac.2
  obtain ⟨hJlt, hJpos⟩ := cdfPick_spec _ _ ht0 ht1
  have hJlt4 : cdfPick (wsC9 ((randIdx (deriveSeed seed 0) 4).1))
      ((randFrac (randIdx (deriveSeed seed 0) 4).2).1.mul
        (qsum (wsC9 ((randIdx (deriveSeed seed 0) 4).1)))) < 4 := by
    simpa [wsC9, rowsC9F, rowsC9] using hJlt
  have hcase := c9_cases _ hI _ hJlt4 ((Q.num_pos_iff _).mpr hJpos)
  rw [Bool.and_eq_true] at hcase
  constructor
  · have hlen4' := hassign ▸ hlen4
    have := groupOK_spec hlen4' hcase.1
    rw [hassign]
    exact this
  · have hclen' := hcents ▸ hclen
    constructor
    · apply normOK_spec
      rw [hcents]
      exact all_getD hcase.2 (by omega) []
    · apply normOK_spec
      rw [hcents]
      exact all_getD hcase.2 (by omega) []

theorem claim_C9_sparse_spherical_witness :
    (exResC3.assignment.getD 0 0 = exResC3.assignment.getD 1 0 ∧
      exResC3.assignment.getD 2 0 = exResC3.assignment.getD 3 0 ∧
      exResC3.assignment.getD 0 0 ≠ exResC3.assignment.getD 2 0) ∧
    |(vnormSq (exResC3.centroids.getD 0 [])).toRat - 1| ≤ 1 / 100000 ∧
    |(vnormSq (exResC3.centroids.getD 1 [])).toRat - 1| ≤ 1 / 100000 :=
  claim_C9_sparse_spherical 7 ⟨1, 1000000⟩ exResC3 rfl

/-! Objective monotonicity in standard mode: rational list algebra. -/

theorem addR_length (x y : List ℚ) : (addR x y).length = min x.length y.length := by
  simp [addR]

theorem scaleR_length (t : ℚ) (x : List ℚ) : (scaleR t x).length = x.length := by
  simp [scaleR]

theorem sumR_length (d : ℕ) (vs : List (List ℚ)) (h : ∀ v ∈ vs, v.length = d) :
    (sumR d vs).length = d := by
  induction vs with
  | nil => simp [sumR]
  | cons v vs ih =>
      have h1 : v.length = d := h v (List.mem_cons_self v vs)
      have h2 := ih fun w hw => h w (List.mem_cons_of_mem v hw)
      simp only [sumR, List.foldr_cons] at h2 ⊢
      rw [addR_length, h1, h2, Nat.min_self]

theorem dotR_add_left : ∀ x y z : List ℚ, x.length = y.length →
    dotR (addR x y) z = dotR x z + dotR y z := by
  intro x
  induction x with
  | nil =>
      intro y z h
      cases y with
      | nil => simp [addR, dotR]
      | cons b ys => simp at h
  | cons a xs ih =>
      intro y z h
      cases y with
      | nil => simp at h
      | cons b ys =>
          cases z with
          | nil => simp [addR, dotR]
          | cons c zs =>
              have := ih ys zs (by simpa using h)
              simp only [addR, List.zipWith_cons_cons, dotR] at this ⊢
              rw [this]
              ring

theorem normSqR_cons (c : ℚ) (l : List ℚ) : normSqR (c :: l) = c * c + normSqR l := rfl

theorem normSq_sub_expand : ∀ x y : List ℚ, x.length = y.length →
    normSqR (subR x y) = normSqR x - 2 * dotR x y + normSqR y := by
  intro x
  induction x with
  | nil =>
      intro y h
      cases y with
      | nil => simp [subR, normSqR, dotR]
      | cons b ys => simp at h
  | cons a xs ih =>
      intro y h
      cases y with
      | nil => simp at h
      | cons b ys =>
          have := ih ys (by simpa using h)
          simp only [subR, List.zipWith_cons_cons, normSqR_cons, dotR] at this ⊢
          rw [this]
          ring

theorem dotR_scale_right (t : ℚ) (x y : List ℚ) : dotR x (scaleR t y) = t * dotR x y := by
  rw [dotR_comm, dotR_scale_left, dotR_comm]

theorem range_map_sum (n : ℕ) (f : ℕ → ℚ) :
    ((List.range n).map f).sum = ∑ i in Finset.range n, f i := by
  induction n with
  | zero => simp
  | succ n ih =>
      rw [List.range_succ, List.map_append, List.sum_append, Finset.sum_range_succ, ih]
      simp

theorem filter_range_map_sum (n : ℕ) (p : ℕ → Bool) (f : ℕ → ℚ) :
    (((List.range n).filter p).map f).sum
      = ∑ i in (Finset.range n).filter (fun i => p i = true), f i := by
  induction n with
  | zero => simp
  | succ n ih =>
      rw [List.range_succ, List.filter_append, List.map_append, List.sum_append, ih,
        Finset.range_succ, Finset.filter_insert]
      by_cases hp : p n = true
      · rw [if_pos hp, Finset.sum_insert (by simp)]
        simp only [List.filter_cons, hp, if_true, List.filter_nil, List.map_cons,
          List.map_nil, List.sum_cons, List.sum_nil]
        ring
      · rw [if_neg hp]
        simp only [List.filter_cons, hp, Bool.false_eq_true, if_false, List.filter_nil,
          List.map_nil, List.sum_nil]
        ring

theorem getD_toRatV (l : DenseVec) : ∀ i : ℕ, (toRatV l).getD i 0 = (l.getD i qzero).toRat := by
  induction l with
  | nil => intro i; simp [toRatV, toRat_qzero]
  | cons x xs ih =>
      intro i
      cases i with
      | zero => simp [toRatV]
      | succ i => simpa [toRatV] using ih i

theorem getD_map_gen {α β : Type} (f : α → β) :
    ∀ (l : List α) (i : ℕ), i < l.length → ∀ (d1 : β) (d2 : α),
      (l.map f).getD i d1 = f (l.getD i d2) := by
  intro l
  induction l with
  | nil => intro i hi; simp at hi
  | cons x xs ih =>
      intro i hi d1 d2
      cases i with
      | zero => simp
      | succ i => simpa using ih i (by simpa using hi) d1 d2

theorem updateAll_getD (sph : Bool) (data : List FlexibleVector) (dim : ℕ) (a : List ℕ)
    (cents : List DenseVec) (c : ℕ) (hc : c < cents.length) :
    (updateAll sph data dim a cents).getD c [] = updateCentroid sph data dim a cents c := by
  unfold updateAll
  rw [getD_map_gen _ _ _ (by simpa using hc) [] 0]
  congr 1
  rw [List.getD_eq_getElem?_getD, List.getElem?_range hc]
  rfl

theorem assignAll_getD (sph : Bool) (data : List FlexibleVector) (cents : List DenseVec)
    (i : ℕ) (hi : i < data.length) :
    (assignAll sph data cents).getD i 0 = argBest sph (getV data i) cents := by
  unfold assignAll
  rw [getD_map_gen _ _ _ (by simpa using hi) 0 (FlexibleVector.dense [])]
  rfl

theorem argBest_le (sph : Bool) (v : FlexibleVector) (cents : List DenseVec) (j : ℕ)
    (hj : j < cents.length) :
    (assignMetric sph v (cents.getD (argBest sph v cents) [])).toRat
      ≤ (assignMetric sph v (cents.getD j [])).toRat := by
  have hne : cents ≠ [] := by
    intro hnil
    rw [hnil] at hj
    simp at hj
  have hlt := argBest_lt sph v cents hne
  have := idxMin_le (cents.map (assignMetric sph v)) j (by simpa using hj)
  rw [show idxMin (cents.map (assignMetric sph v)) = argBest sph v cents from rfl] at this
  rw [getQ, getQ, getD_map_gen _ _ _ (by simpa using hlt) qzero [],
    getD_map_gen _ _ _ (by simpa using hj) qzero []] at this
  exact this

/-! Bridge: the model distSq of a valid vector against a dense centroid is the
squared Euclidean norm of the dense difference, at the ℚ level. -/

theorem toDenseVec_dense_eq {xs : List Q} {dim : ℕ} (h : xs.length = dim) :
    (FlexibleVector.dense xs).toDenseVec dim = xs := by
  subst h
  simp [FlexibleVector.toDenseVec]

theorem toRatV_length (l : DenseVec) : (toRatV l).length = l.length := by
  simp [toRatV]

theorem toRatV_set (l : DenseVec) (i : ℕ) (x : Q) :
    toRatV (l.set i x) = (toRatV l).set i x.toRat := by
  induction l generalizing i with
  | nil => simp [toRatV]
  | cons a l ih =>
      cases i with
      | zero => simp [toRatV]
      | succ i => simpa [toRatV] using ih i

theorem getD_set_ne (b : DenseVec) (j t : ℕ) (x : Q) (h : j ≠ t) :
    (b.set j x).getD t qzero = b.getD t qzero := by
  simp [List.getD_eq_getElem?_getD, List.getElem?_set_ne h]

theorem getD_set_eq (b : DenseVec) (j : ℕ) (x : Q) (h : j < b.length) :
    (b.set j x).getD j qzero = x := by
  simp [List.getD_eq_getElem?_getD, List.getElem?_set_eq_of_lt x h]

theorem dotR_set : ∀ (b y : List ℚ) (i : ℕ) (x : ℚ), i < b.length → b.length = y.length →
    dotR (b.set i x) y = dotR b y + (x - b.getD i 0) * y.getD i 0 := by
  intro b
  induction b with
  | nil => intro y i x hi _; simp at hi
  | cons a bs ih =>
      intro y i x hi hlen
      cases y with
      | nil => simp at hlen
      | cons c ys =>
          cases i with
          | zero =>
              show dotR (x :: bs) (c :: ys) = _
              simp only [dotR, List.getD_cons_zero]
              ring
          | succ i =>
              have ihh := ih ys i x (by simpa using hi) (by simpa using hlen)
              show dotR (a :: bs.set i x) (c :: ys) = _
              simp only [dotR, ihh, List.getD_cons_succ]
              ring

theorem vzero_getD : ∀ (d t : ℕ), (vzero d).getD t qzero = qzero := by
  intro d
  induction d with
  | zero => intro t; cases t <;> rfl
  | succ d ih =>
      intro t
      cases t with
      | zero => rfl
      | succ t => simpa [vzero, List.replicate_succ] using ih t

theorem dotR_replicate_zero : ∀ (d : ℕ) (y : List ℚ), dotR (List.replicate d 0) y = 0 := by
  intro d
  induction d with
  | zero => intro y; cases y <;> simp [dotR]
  | succ d ih =>
      intro y
      cases y with
      | nil => simp [dotR]
      | cons c ys => simp [List.replicate_succ, dotR, ih]

theorem dotR_scatter : ∀ (ps : List (ℤ × Q)) (buf : DenseVec) (y : List ℚ),
    List.Pairwise (fun p q : ℤ × Q => p.1 ≠ q.1) ps →
    (∀ p ∈ ps, 0 ≤ p.1 ∧ p.1.toNat < buf.length) →
    (toRatV buf).length = y.length →
    dotR (toRatV (scatterPairs ps buf)) y
      = dotR (toRatV buf) y
        + (ps.map (fun p => (p.2.toRat - (buf.getD p.1.toNat qzero).toRat)
            * y.getD p.1.toNat 0)).sum := by
  intro ps
  induction ps with
  | nil => intro buf y _ _ _; simp [scatterPairs]
  | cons p ps ih =>
      intro buf y hdist hrange hlen
      have hp := hrange p (List.mem_cons_self p ps)
      have hne : ∀ q ∈ ps, q.1.toNat ≠ p.1.toNat := by
        intro q hq
        have hq' := hrange q (List.mem_cons_of_mem p hq)
        have := (List.pairwise_cons.mp hdist).1 q hq
        omega
      show dotR (toRatV (scatterPairs ps (buf.set p.1.toNat p.2))) y = _
      rw [ih (buf.set p.1.toNat p.2) y (List.pairwise_cons.mp hdist).2
        (fun q hq => ⟨(hrange q (List.mem_cons_of_mem p hq)).1, by
          simpa using (hrange q (List.mem_cons_of_mem p hq)).2⟩)
        (by simpa [toRatV_length] using hlen)]
      rw [toRatV_set, dotR_set _ _ _ _ (by simpa [toRatV_length] using hp.2)
        (by simpa [toRatV_length] using hlen)]
      rw [List.map_congr_left (fun q hq => by
        rw [getD_set_ne buf p.1.toNat q.1.toNat p.2 (fun he => hne q hq he.symm)])]
      rw [getD_toRatV]
      simp only [List.map_cons, List.sum_cons]
      ring

theorem scatterPairs_getD_mem : ∀ (ps : List (ℤ × Q)) (buf : DenseVec) (p : ℤ × Q),
    List.Pairwise (fun p q : ℤ × Q => p.1 ≠ q.1) ps →
    (∀ q ∈ ps, 0 ≤ q.1 ∧ q.1.toNat < buf.length) →
    p ∈ ps →
    (scatterPairs ps buf).getD p.1.toNat qzero = p.2 := by
  intro ps
  induction ps with
  | nil => intro buf p _ _ hp; simp at hp
  | cons q ps ih =>
      intro buf p hdist hrange hp
      have hq := hrange q (List.mem_cons_self q ps)
      have hne : ∀ r ∈ ps, r.1.toNat ≠ q.1.toNat := by
        intro r hr
        have hr' := hrange r (List.mem_cons_of_mem q hr)
        have := (List.pairwise_cons.mp hdist).1 r hr
        omega
      rcases List.mem_cons.mp hp with hp | hp
      · subst hp
        show (scatterPairs ps (buf.set p.1.toNat p.2)).getD p.1.toNat qzero = p.2
        rw [scatterPairs_getD_ne _ _ _ (fun r hr => hne r hr)]
        exact getD_set_eq buf p.1.toNat p.2 hq.2
      · show (scatterPairs ps (buf.set q.1.toNat q.2)).getD p.1.toNat qzero = p.2
        exact ih (buf.set q.1.toNat q.2) p (List.pairwise_cons.mp hdist).2
          (fun r hr => ⟨(hrange r (List.mem_cons_of_mem q hr)).1, by
            simpa using (hrange r (List.mem_cons_of_mem q hr)).2⟩) hp

theorem dotR_toDense (ps : List (ℤ × Q)) (dim : ℕ) (y : List ℚ)
    (hdist : List.Pairwise (fun p q : ℤ × Q => p.1 ≠ q.1) ps)
    (hrange : ∀ p ∈ ps, 0 ≤ p.1 ∧ p.1.toNat < dim) (hy : y.length = dim) :
    dotR (toRatV (ToDense ps dim)) y
      = (ps.map (fun p => p.2.toRat * y.getD p.1.toNat 0)).sum := by
  unfold ToDense
  rw [dotR_scatter ps (vzero dim) y hdist
    (by simpa [vzero] using hrange) (by simp [toRatV_length, vzero, hy])]
  rw [toRatV_vzero, dotR_replicate_zero]
  rw [List.map_congr_left (fun q _ => by rw [vzero_getD, toRat_qzero])]
  simp

theorem sparse_pairwise_ne {dim : ℕ} {ps : List (ℤ × Q)}
    (hv : ValidVec dim (FlexibleVector.sparse ps)) :
    List.Pairwise (fun p q : ℤ × Q => p.1 ≠ q.1) ps := by
  obtain ⟨hchain, _⟩ := hv
  haveI : IsTrans (ℤ × Q) (fun p q : ℤ × Q => p.1 < q.1) :=
    ⟨fun _ _ _ h1 h2 => lt_trans h1 h2⟩
  exact (List.chain'_iff_pairwise.mp hchain).imp (fun h => ne_of_lt h)

theorem sparse_range {dim : ℕ} {ps : List (ℤ × Q)}
    (hv : ValidVec dim (FlexibleVector.sparse ps)) :
    ∀ p ∈ ps, 0 ≤ p.1 ∧ p.1.toNat < dim := by
  obtain ⟨_, hr⟩ := hv
  intro p hp
  have := hr p hp
  omega

theorem qtwo_toRat : qtwo.toRat = 2 := by
  unfold qtwo Q.toRat
  norm_num

theorem dot_bridge (dim : ℕ) (v : FlexibleVector) (c : DenseVec)
    (hv : ValidVec dim v) (hc : c.length = dim) :
    (v.dotDense c).toRat = dotR (toRatV (v.toDenseVec dim)) (toRatV c) := by
  cases v with
  | dense xs =>
      rw [toDenseVec_dense_eq hv]
      exact toRatV_vdot xs c
  | sparse ps =>
      show (qsum (ps.map (fun p => p.2.mul (getQ c p.1.toNat)))).toRat = _
      rw [toRat_qsum, List.map_map]
      show (ps.map (fun p => (p.2.mul (getQ c p.1.toNat)).toRat)).sum = _
      rw [show (FlexibleVector.sparse ps).toDenseVec dim = ToDense ps dim from rfl]
      rw [dotR_toDense ps dim (toRatV c) (sparse_pairwise_ne hv) (sparse_range hv)
        (by simp [toRatV_length, hc])]
      refine congrArg List.sum (List.map_congr_left ?_)
      intro p _
      show (p.2.mul (getQ c p.1.toNat)).toRat = p.2.toRat * (toRatV c).getD p.1.toNat 0
      rw [Q.toRat_mul, getD_toRatV]
      rfl

theorem normSq_bridge (dim : ℕ) (v : FlexibleVector) (hv : ValidVec dim v) :
    v.normSq.toRat = normSqR (toRatV (v.toDenseVec dim)) := by
  cases v with
  | dense xs =>
      rw [toDenseVec_dense_eq hv]
      exact toRatV_vnormSq xs
  | sparse ps =>
      show (qsum (ps.map (fun p => p.2.mul p.2))).toRat = _
      rw [toRat_qsum, List.map_map]
      unfold normSqR
      rw [show (FlexibleVector.sparse ps).toDenseVec dim = ToDense ps dim from rfl]
      rw [dotR_toDense ps dim (toRatV (ToDense ps dim)) (sparse_pairwise_ne hv)
        (sparse_range hv) (by simp [toRatV_length, ToDense, scatterPairs_length, vzero])]
      refine congrArg List.sum (List.map_congr_left ?_)
      intro p hp
      show (p.2.mul p.2).toRat = p.2.toRat * (toRatV (ToDense ps dim)).getD p.1.toNat 0
      rw [Q.toRat_mul, getD_toRatV]
      unfold ToDense
      rw [scatterPairs_getD_mem ps (vzero dim) p (sparse_pairwise_ne hv)
          (by simpa [vzero] using sparse_range hv) hp]

theorem distSq_bridge (dim : ℕ) (v : FlexibleVector) (c : DenseVec)
    (hv : ValidVec dim v) (hc : c.length = dim) :
    (distSq v c).toRat = normSqR (subR (toRatV (v.toDenseVec dim)) (toRatV c)) := by
  rw [normSq_sub_expand _ _ (by simp [toRatV_length, toDenseVec_length, hc])]
  unfold distSq
  rw [Q.toRat_add, Q.toRat_sub, Q.toRat_mul, qtwo_toRat, toRatV_vnormSq,
    dot_bridge dim v c hv hc, normSq_bridge dim v hv]

/-! Mean minimization: the coordinate-wise mean minimizes the sum of squared
distances over any cluster. -/

theorem sum_normSq_sub : ∀ (vs : List (List ℚ)) (x : List ℚ) (d : ℕ),
    (∀ v ∈ vs, v.length = d) → x.length = d →
    (vs.map (fun v => normSqR (subR v x))).sum
      = (vs.map normSqR).sum - 2 * dotR (sumR d vs) x
        + (vs.length : ℚ) * normSqR x := by
  intro vs
  induction vs with
  | nil => intro x d _ _; simp [sumR, dotR_replicate_zero]
  | cons v vs ih =>
      intro x d hv hx
      have h1 : v.length = d := hv v (List.mem_cons_self v vs)
      have htail : ∀ w ∈ vs, w.length = d := fun w hw => hv w (List.mem_cons_of_mem v hw)
      have ihh := ih x d htail hx
      simp only [List.map_cons, List.sum_cons, List.length_cons]
      rw [ihh, normSq_sub_expand v x (h1.trans hx.symm)]
      rw [show sumR d (v :: vs) = addR v (sumR d vs) from rfl,
        dotR_add_left v (sumR d vs) x (by rw [h1, sumR_length d vs htail])]
      push_cast
      ring

theorem mean_min (vs : List (List ℚ)) (x : List ℚ) (d : ℕ)
    (hv : ∀ v ∈ vs, v.length = d) (hx : x.length = d) (hm : 0 < vs.length) :
    (vs.map (fun v => normSqR (subR v (scaleR (1 / (vs.length : ℚ)) (sumR d vs))))).sum
      ≤ (vs.map (fun v => normSqR (subR v x))).sum := by
  have hm0 : (0 : ℚ) < (vs.length : ℚ) := by exact_mod_cast hm
  have hmne : (vs.length : ℚ) ≠ 0 := ne_of_gt hm0
  have hSlen : (sumR d vs).length = d := sumR_length d vs hv
  have hμlen : (scaleR (1 / (vs.length : ℚ)) (sumR d vs)).length = d := by
    rw [scaleR_length, hSlen]
  have hfx := sum_normSq_sub vs x d hv hx
  have hfμ := sum_normSq_sub vs (scaleR (1 / (vs.length : ℚ)) (sumR d vs)) d hv hμlen
  have hdotμ : dotR (sumR d vs) (scaleR (1 / (vs.length : ℚ)) (sumR d vs))
      = (1 / (vs.length : ℚ)) * normSqR (sumR d vs) := by
    rw [dotR_scale_right]
    rfl
  have hnormμ : normSqR (scaleR (1 / (vs.length : ℚ)) (sumR d vs))
      = (1 / (vs.length : ℚ)) ^ 2 * normSqR (sumR d vs) := normSqR_scale _ _
  have hexp : normSqR (subR x (scaleR (1 / (vs.length : ℚ)) (sumR d vs)))
      = normSqR x - 2 * ((1 / (vs.length : ℚ)) * dotR (sumR d vs) x)
        + (1 / (vs.length : ℚ)) ^ 2 * normSqR (sumR d vs) := by
    rw [normSq_sub_expand x _ (hx.trans hμlen.symm), hnormμ]
    rw [dotR_scale_right, dotR_comm]
  have hnn : 0 ≤ normSqR (subR x (scaleR (1 / (vs.length : ℚ)) (sumR d vs))) :=
    dotR_self_nonneg _
  rw [hfx, hfμ, hdotμ, hnormμ]
  have key : ((vs.map normSqR).sum - 2 * dotR (sumR d vs) x
        + (vs.length : ℚ) * normSqR x)
      - ((vs.map normSqR).sum
        - 2 * ((1 / (vs.length : ℚ)) * normSqR (sumR d vs))
        + (vs.length : ℚ) * ((1 / (vs.length : ℚ)) ^ 2 * normSqR (sumR d vs)))
      = (vs.length : ℚ)
        * normSqR (subR x (scaleR (1 / (vs.length : ℚ)) (sumR d vs))) := by
    rw [hexp]
    field_simp
    ring
  have h0 : 0 ≤ (vs.length : ℚ)
      * normSqR (subR x (scaleR (1 / (vs.length : ℚ)) (sumR d vs))) :=
    mul_nonneg (le_of_lt hm0) hnn
  linarith [key, h0]

/-! The two half-steps of a Lloyd iteration do not increase the standard
objective. -/

theorem getD_mem_nat {l : List ℕ} {i : ℕ} (h : i < l.length) (d : ℕ) : l.getD i d ∈ l := by
  rw [List.getD_eq_getElem?_getD, List.getElem?_eq_getElem h]
  exact List.getElem_mem h

theorem getD_mem_vec {l : List DenseVec} {i : ℕ} (h : i < l.length) (d : DenseVec) :
    l.getD i d ∈ l := by
  rw [List.getD_eq_getElem?_getD, List.getElem?_eq_getElem h]
  exact List.getElem_mem h

theorem getV_mem {data : List FlexibleVector} {i : ℕ} (h : i < data.length) :
    getV data i ∈ data := by
  unfold getV
  rw [List.getD_eq_getElem?_getD, List.getElem?_eq_getElem h]
  exact List.getElem_mem h

theorem obj_le_after_assign (data : List FlexibleVector) (a : List ℕ)
    (cents : List DenseVec) (ha : a.length = data.length)
    (hak : ∀ j ∈ a, j < cents.length) :
    (objectiveQ false data (assignAll false data cents) cents).toRat
      ≤ (objectiveQ false data a cents).toRat := by
  unfold objectiveQ
  rw [toRat_qsum, toRat_qsum, List.map_map, List.map_map, range_map_sum, range_map_sum]
  apply Finset.sum_le_sum
  intro i hi
  have hin : i < data.length := Finset.mem_range.mp hi
  have hji : a.getD i 0 < cents.length := hak _ (getD_mem_nat (ha ▸ hin) 0)
  have hopt := argBest_le false (getV data i) cents (a.getD i 0) hji
  simp only [Function.comp]
  rw [assignAll_getD false data cents i hin]
  exact hopt

theorem fiber_sum_eq (n : ℕ) (a : List ℕ) (c : ℕ) (F : ℕ → ℚ) (ha : a.length = n) :
    ∑ i in (Finset.range n).filter (fun i => a.getD i 0 = c), F i
      = ((memberIdx a c).map F).sum := by
  unfold memberIdx
  rw [ha, filter_range_map_sum]
  apply Finset.sum_congr
  · apply Finset.filter_congr
    intro i _
    simp
  · intro i _
    rfl

theorem toRatV_meanVec (dim : ℕ) (mem : List FlexibleVector) :
    toRatV (meanVec dim mem)
      = scaleR (1 / (mem.length : ℚ))
          (sumR dim ((mem.map (FlexibleVector.toDenseVec dim)).map toRatV)) := by
  unfold meanVec
  rw [toRatV_vscale, toRatV_vsum]
  congr 1
  rw [Q.toRat_inv]
  rw [show (⟨((mem.length : ℕ) : ℤ), 1⟩ : Q).toRat = (mem.length : ℚ) by
    unfold Q.toRat; norm_num]
  rw [one_div]

theorem obj_le_after_update (data : List FlexibleVector) (dim : ℕ) (a : List ℕ)
    (cents : List DenseVec) (hdata : ∀ v ∈ data, ValidVec dim v)
    (ha : a.length = data.length) (hak : ∀ j ∈ a, j < cents.length)
    (hcl : ∀ c ∈ cents, c.length = dim) :
    (objectiveQ false data a (updateAll false data dim a cents)).toRat
      ≤ (objectiveQ false data a cents).toRat := by
  unfold objectiveQ
  rw [toRat_qsum, toRat_qsum, List.map_map, List.map_map, range_map_sum, range_map_sum]
  simp only [Function.comp]
  have hmaps : ∀ i ∈ Finset.range data.length,
      a.getD i 0 ∈ Finset.range cents.length := by
    intro i hi
    have hin : i < data.length := Finset.mem_range.mp hi
    exact Finset.mem_range.mpr (hak _ (getD_mem_nat (ha ▸ hin) 0))
  rw [← Finset.sum_fiberwise_of_maps_to hmaps, ← Finset.sum_fiberwise_of_maps_to hmaps]
  apply Finset.sum_le_sum
  intro c hcr
  have hck : c < cents.length := Finset.mem_range.mp hcr
  have hulen : (updateAll false data dim a cents).length = cents.length :=
    updateAll_length false data dim a cents
  have hLc : ∀ i ∈ (Finset.range data.length).filter (fun i => a.getD i 0 = c),
      (objTerm false (getV data i)
        ((updateAll false data dim a cents).getD (a.getD i 0) [])).toRat
      = normSqR (subR (toRatV ((getV data i).toDenseVec dim))
          (toRatV (updateCentroid false data dim a cents c))) := by
    intro i hi
    obtain ⟨hir, hifib⟩ := Finset.mem_filter.mp hi
    have hin : i < data.length := Finset.mem_range.mp hir
    rw [hifib, updateAll_getD false data dim a cents c hck]
    exact distSq_bridge dim _ _ (hdata _ (getV_mem hin))
      (updateCentroid_length false data dim a cents c)
  have hRc : ∀ i ∈ (Finset.range data.length).filter (fun i => a.getD i 0 = c),
      (objTerm false (getV data i)
        (cents.getD (a.getD i 0) [])).toRat
      = normSqR (subR (toRatV ((getV data i).toDenseVec dim))
          (toRatV (cents.getD c []))) := by
    intro i hi
    obtain ⟨hir, hifib⟩ := Finset.mem_filter.mp hi
    have hin : i < data.length := Finset.mem_range.mp hir
    rw [hifib]
    exact distSq_bridge dim _ _ (hdata _ (getV_mem hin))
      (hcl _ (getD_mem_vec hck []))
  rw [Finset.sum_congr rfl hLc, Finset.sum_congr rfl hRc]
  rw [fiber_sum_eq data.length a c _ ha, fiber_sum_eq data.length a c _ ha]
  have hmm : ∀ (x : DenseVec),
      ((memberIdx a c).map (fun i => normSqR (subR (toRatV ((getV data i).toDenseVec dim))
        (toRatV x)))).sum
      = (((clusterMembers data a c).map
          (fun v => toRatV (v.toDenseVec dim))).map
            (fun w => normSqR (subR w (toRatV x)))).sum := by
    intro x
    unfold clusterMembers
    rw [List.map_map, List.map_map]
    rfl
  have hmemlen : ∀ w ∈ (clusterMembers data a c).map
      (fun v => toRatV (v.toDenseVec dim)), w.length = dim := by
    intro w hw
    obtain ⟨v, _, rfl⟩ := List.mem_map.mp hw
    simp [toRatV_length, toDenseVec_length]
  by_cases hemp : (clusterMembers data a c).isEmpty
  · have hnil : clusterMembers data a c = [] := by
      rwa [List.isEmpty_iff] at hemp
    have hmidx : memberIdx a c = [] := by
      unfold clusterMembers at hnil
      exact List.map_eq_nil.mp hnil
    rw [hmidx]
    simp
  · have hupc : updateCentroid false data dim a cents c
        = meanVec dim (clusterMembers data a c) := by
      unfold updateCentroid
      rw [if_neg (by simp), if_neg hemp]
    rw [hupc, hmm, hmm]
    have hne : clusterMembers data a c ≠ [] := by
      simpa [List.isEmpty_iff] using hemp
    have hmlen : 0 < (clusterMembers data a c).length := List.length_pos.mpr hne
    have hW : ((clusterMembers data a c).map (FlexibleVector.toDenseVec dim)).map toRatV
        = (clusterMembers data a c).map (fun v => toRatV (v.toDenseVec dim)) := by
      rw [List.map_map]
      rfl
    have hlenW : ((clusterMembers data a c).map
        (fun v => toRatV (v.toDenseVec dim))).length
        = (clusterMembers data a c).length := by
      rw [List.length_map]
    have hmean : toRatV (meanVec dim (clusterMembers data a c))
        = scaleR (1 / ((((clusterMembers data a c).map
            (fun v => toRatV (v.toDenseVec dim))).length : ℕ) : ℚ))
          (sumR dim ((clusterMembers data a c).map (fun v => toRatV (v.toDenseVec dim)))) := by
      rw [toRatV_meanVec, hW, hlenW]
    rw [hmean]
    exact mean_min _ (toRatV (cents.getD c [])) dim hmemlen
      (by rw [toRatV_length]; exact hcl _ (getD_mem_vec hck []))
      (by rw [hlenW]; exact hmlen)

/-- C6: in standard mode, one full Lloyd iteration (centroid update from the
current assignment, then reassignment to the nearest new centroid) never
increases the objective — the sum of squared distances of each vector to its
assigned centroid — so within a run the objective is non-increasing from each
iteration to the next until convergence. -/
theorem claim_C6_objective_monotonic :
    ∀ (data : List FlexibleVector) (dim : ℕ) (a : List ℕ) (cents : List DenseVec),
      (∀ v ∈ data, ValidVec dim v) → a.length = data.length →
      (∀ j ∈ a, j < cents.length) → (∀ c ∈ cents, c.length = dim) →
      (objectiveQ false data (iterStep false data dim (a, cents)).1
        (iterStep false data dim (a, cents)).2).toRat
        ≤ (objectiveQ false data a cents).toRat := by
  intro data dim a cents hdata ha hak hcl
  have h1 := obj_le_after_update data dim a cents hdata ha hak hcl
  have h2 := obj_le_after_assign data a (updateAll false data dim a cents) ha
    (fun j hj => by rw [updateAll_length]; exact hak j hj)
  exact le_trans h2 h1

theorem claim_C6_objective_monotonic_witness :
    (objectiveQ false dataC8F
      (iterStep false dataC8F 2 ([0, 0, 0, 1], [dvecC8 0, dvecC8 3])).1
      (iterStep false dataC8F 2 ([0, 0, 0, 1], [dvecC8 0, dvecC8 3])).2).toRat
      ≤ (objectiveQ false dataC8F [0, 0, 0, 1] [dvecC8 0, dvecC8 3]).toRat := by
  apply claim_C6_objective_monotonic dataC8F 2 [0, 0, 0, 1] [dvecC8 0, dvecC8 3]
  · intro v hv
    fin_cases hv <;> rfl
  · rfl
  · intro j hj
    fin_cases hj <;> norm_num
  · intro c hc
    fin_cases hc <;> rfl

end ESPkMeansLib
